import Mathlib

/-!
Verification of the `feather` definitions generator
(`definitions/generator/src/{model,frontend,backend}.rs`).

The generator is embedded shallowly:

* Rust `String` values are embedded as `List Char` (`Str`).  The Rust code
  indexes strings by byte; the embedding indexes by character.  The two
  coincide on ASCII data, and theorems that quantify over strings restrict
  themselves to ASCII characters where positions matter.
* `std::collections::BTreeMap` is embedded as an association list kept
  sorted by key (`SMap`); iteration order of the embedding is list order,
  which for maps built by repeated insertion is the sorted key order, as
  for `BTreeMap`.
* `ron::Value` is embedded as `RonValue`; its `Map` and `Option` variants
  are omitted from the model (in `Value::from_ron` they hit the same
  catch-all arm as the modelled `charV`/`unitV` variants).  The numeric
  payload of `ron::Value::Number` (an `f64`) is modelled as `Rat`.
* `heck::CamelCase` is third-party; it is modelled by `toCamelCase`
  (split on non-alphanumeric separators, capitalize each word), which is
  adequate for the snake_case ASCII names the repository feeds it.
* Rust panics (`Result::unwrap` on a conversion failure in
  `add_to_data`, `expand_expr(..).unwrap()` in the first expansion phase,
  `Option::unwrap` on a missing map entry during write-back) are modelled
  as the distinguished outcome `panicked`, kept separate from the
  `anyhow::Result` error channel (`err`), which is the only channel that
  receives `with_context` file information.
* `regex` is third-party; the single pattern `\$\{[^}]+}` is embedded by
  `findMatch` (leftmost match: `${`, one or more non-`}` characters, `}`),
  and `str::replace` by `replaceAll` (all non-overlapping occurrences,
  left to right).  Both use an explicit fuel argument, always called with
  fuel strictly larger than the input length, so that recursion is
  structural and the functions compute by `rfl`/`decide`.
-/

namespace Feather

/-- Strings of the embedding: Rust `String` as a list of characters. -/
abbrev Str := List Char

/-- Character constants used by the placeholder syntax `${name}`. -/
def dollarC : Char := '$'

/-- Opening brace of a placeholder. -/
def lbraceC : Char := '\x7b'

/-- Closing brace of a placeholder. -/
def rbraceC : Char := '\x7d'

/-- Lexicographic comparison of strings, mirroring Rust `String` order
(UTF-8 byte order coincides with code-point order). -/
def strLt : Str → Str → Bool
  | [], [] => false
  | [], _ :: _ => true
  | _ :: _, [] => false
  | a :: as, b :: bs => if a < b then true else if b < a then false else strLt as bs

/-- Association list standing for `BTreeMap<String, α>`; maps built by the
embedding are kept sorted by `sInsert`. -/
abbrev SMap (α : Type) := List (Str × α)

/-- Lookup, as `BTreeMap::get` (first matching key). -/
def sGet (k : Str) : SMap α → Option α
  | [] => none
  | (k', v) :: rest => if k = k' then some v else sGet k rest

/-- Insertion, as `BTreeMap::insert`: replaces the value of an existing key,
otherwise inserts at the sorted position. -/
def sInsert (k : Str) (v : α) : SMap α → SMap α
  | [] => [(k, v)]
  | (k', v') :: rest =>
    if k = k' then (k, v) :: rest
    else if strLt k k' then (k, v) :: (k', v') :: rest
    else (k', v') :: sInsert k v rest

/-- Collecting an iterator of pairs into a `BTreeMap`: sequential insertion,
a later key silently overwrites an earlier equal key. -/
def sFromList (l : List (Str × α)) : SMap α :=
  l.foldl (fun m kv => sInsert kv.1 kv.2 m) []

/-- Word characters for the casing transform (alphanumeric). -/
def isWordChar (c : Char) : Bool := c.isAlphanum

/-- Splits a raw name into words at non-alphanumeric separators
(model of the word segmentation done by `heck`). -/
def splitWordsAux : Str → Str → List Str
  | [], acc => if acc = [] then [] else [acc.reverse]
  | c :: rest, acc =>
    if isWordChar c then splitWordsAux rest (c :: acc)
    else if acc = [] then splitWordsAux rest []
    else acc.reverse :: splitWordsAux rest []

/-- Word list of a raw name. -/
def splitWords (s : Str) : List Str := splitWordsAux s []

/-- Capitalizes one word: first character upper-cased, rest lower-cased. -/
def capWord : Str → Str
  | [] => []
  | c :: cs => c.toUpper :: cs.map Char.toLower

/-- Model of `heck::CamelCase::to_camel_case` (the casing transform used for
every emitted identifier). -/
def toCamelCase (s : Str) : Str := ((splitWords s).map capWord).flatten

/-- The `Type` enum of `model.rs` (`Type` is reserved in Lean, hence `Ty`):
`Slice(Box<Type>) | U32 | F64 | String | Bool | Custom(String)`. -/
inductive Ty where
  | slice (inner : Ty)
  | u32
  | f64
  | string
  | bool
  | custom (name : Str)
deriving DecidableEq

mutual
/-- Model of `ron::Value` as consumed by `Value::from_ron`.  `charV` and
`unitV` stand for the `ron::Value` variants that reach the catch-all arm
(`Char`, `Unit`; the `Map` and `Option` variants, which reach the same
arm, are omitted from the model). -/
inductive RonValue where
  | number (q : Rat)
  | string (s : Str)
  | seq (vs : RonSeq)
  | boolean (b : Bool)
  | charV (c : Char)
  | unitV
deriving DecidableEq

/-- Sequence payload of `RonValue.seq` (a `Vec<ron::Value>`; an inlined list
so that recursion over it is structural). -/
inductive RonSeq where
  | nil
  | cons (v : RonValue) (tl : RonSeq)
deriving DecidableEq
end

mutual
/-- The `Value` enum of `frontend.rs`:
`U32(u32) | F64(f64) | String(String) | Slice(Vec<Value>) | Bool(bool) | Custom(String)`. -/
inductive Value where
  | u32 (n : Nat)
  | f64 (q : Rat)
  | string (s : Str)
  | slice (vs : ValueList)
  | bool (b : Bool)
  | custom (s : Str)
deriving DecidableEq

/-- Sequence payload of `Value.slice` (a `Vec<Value>`; an inlined list so
that recursion over it is structural). -/
inductive ValueList where
  | nil
  | cons (v : Value) (tl : ValueList)
deriving DecidableEq
end

/-- Errors produced by the frontend (`anyhow` messages, given structure):
`typeMismatch` for the two `bail!`s of `Value::from_ron`, `unknownEnumRef`
for the missing-enum error of `expand_expr`, `duplicateProperty` for the
`bail!` of `add_to_data`, and `unwrapNone` for the `Option::unwrap` of a
missing map entry during expansion write-back (a panic in Rust). -/
inductive GenError where
  | typeMismatch (typ : Ty) (value : RonValue)
  | unknownEnumRef (name : Str)
  | duplicateProperty (name : Str)
  | unwrapNone
deriving DecidableEq

/-- Equality of `Except` results is decidable when both components are. -/
instance {ε α : Type} [DecidableEq ε] [DecidableEq α] : DecidableEq (Except ε α) := fun a b =>
  match a, b with
  | .ok x, .ok y => if h : x = y then .isTrue (by simp [h]) else .isFalse (by simp [h])
  | .error x, .error y => if h : x = y then .isTrue (by simp [h]) else .isFalse (by simp [h])
  | .ok _, .error _ => .isFalse (by simp)
  | .error _, .ok _ => .isFalse (by simp)

/-- Rounding of the `f64` payload as in `n.get().round()` (round half away
from zero), on the rational model of the payload. -/
def rustRound (q : Rat) : Int :=
  if 0 ≤ q then (q + 1 / 2).floor else -((-q + 1 / 2).floor)

/-- The saturating `as u32` cast applied to the rounded payload. -/
def satU32 (i : Int) : Nat :=
  if i < 0 then 0 else if i > 4294967295 then 4294967295 else i.toNat

mutual
/-- Model of `Value::from_ron(r, typ)` (`frontend.rs:131-152`):
a number becomes `U32`/`F64` exactly under those declared types and is a
type mismatch otherwise; a string becomes `String` under declared `string`
and a `Custom` variant reference under every other declared type; a
sequence is converted elementwise *with the same declared type* (the code
passes `typ.clone()` unchanged to the recursive call); a boolean becomes
`Bool` under every declared type; the remaining `ron::Value` shapes are a
type mismatch. -/
def Value.from_ron : RonValue → Ty → Except GenError Value
  | .number q, t =>
    match t with
    | .u32 => .ok (.u32 (satU32 (rustRound q)))
    | .f64 => .ok (.f64 q)
    | t' => .error (.typeMismatch t' (.number q))
  | .string s, t => if t = Ty.string then .ok (.string s) else .ok (.custom s)
  | .seq vs, t => (fromRonSeq vs t).map Value.slice
  | .boolean b, _ => .ok (.bool b)
  | r, t => .error (.typeMismatch t r)

/-- Elementwise conversion of a sequence literal, short-circuiting at the
first error (`collect::<anyhow::Result<Vec<_>>>()`). -/
def fromRonSeq : RonSeq → Ty → Except GenError ValueList
  | .nil, _ => .ok .nil
  | .cons v tl, t => do
    let x ← Value.from_ron v t
    let xs ← fromRonSeq tl t
    .ok (.cons x xs)
end

/-- The `Property` struct of `frontend.rs`: name, declared type, and the
mapping from variant names to converted values. -/
structure Property where
  name : Str
  typ : Ty
  mapping : SMap Value
deriving DecidableEq

/-- The `Enum` struct of `frontend.rs`. -/
structure Enum where
  name : Str
  name_camel_case : Str
  variants : List Str
  variants_camel_case : List Str
  properties : SMap Property
  file : Str
deriving DecidableEq

/-- `Enum::default()`: every field empty. -/
def Enum.default : Enum := ⟨[], [], [], [], [], []⟩

/-- The `Data` registry: mapping from enum names to enums. -/
structure Data where
  enums : SMap Enum
deriving DecidableEq

/-- The `VecOrOne` shorthand of `model.rs` (one-or-many keys). -/
inductive VecOrOne (α : Type) where
  | vec (l : List α)
  | one (x : α)
deriving DecidableEq

/-- The `Model` enum of `model.rs`.  The property mapping is carried as the
iteration sequence of the parsed `BTreeMap<VecOrOne<String>, ron::Value>`. -/
inductive Model where
  | enumDecl (name : Str) (variants : List Str)
  | propertyDecl (onName : Str) (name : Str) (typ : Ty) (mapping : List (VecOrOne Str × RonValue))
deriving DecidableEq

/-- The `ModelFile` enum of `model.rs`: one declaration or a list. -/
inductive ModelFile where
  | single (m : Model)
  | multiple (ms : List Model)
deriving DecidableEq

/-- A data file as consumed by `from_slice`.  The Rust function receives
text and first parses it with `ron`/`serde` (third-party); the embedding
receives the parsed `ModelFile` directly. -/
structure DataFile where
  contents : ModelFile
  name : Str
deriving DecidableEq

/-- Outcome of a frontend step: an `anyhow` error (`err`, the channel that
`with_context` wraps) or a Rust panic (`panicked`). -/
inductive LoadOut (α : Type) where
  | ok (a : α)
  | err (e : GenError)
  | panicked (e : GenError)
deriving DecidableEq

/-- Key list of a mapping entry (`VecOrOne::Vec` or a singleton). -/
def keyList : VecOrOne Str → List Str
  | .vec l => l
  | .one x => [x]

/-- One mapping entry of a property declaration: for each key the literal is
converted with `Value::from_ron(..).unwrap()` — a conversion failure is a
panic, and with an empty key list the conversion is never run. -/
def convEntry (typ : Ty) (value : RonValue) : List Str → LoadOut (List (Str × Value))
  | [] => .ok []
  | k :: rest =>
    match Value.from_ron value typ with
    | .error e => .panicked e
    | .ok v =>
      match convEntry typ value rest with
      | .ok ps => .ok ((k, v) :: ps)
      | o => o

/-- The `flat_map` over all mapping entries of a property declaration. -/
def convMapping (typ : Ty) : List (VecOrOne Str × RonValue) → LoadOut (List (Str × Value))
  | [] => .ok []
  | (ks, v) :: rest =>
    match convEntry typ v (keyList ks) with
    | .ok ps =>
      (match convMapping typ rest with
       | .ok ps' => .ok (ps ++ ps')
       | o => o)
    | o => o

/-- One `Model` of `add_to_data` (`frontend.rs:37-85`): an enum declaration
upserts the registry entry, overwriting name, casing forms, variant list
and file tag while keeping accumulated properties; a property declaration
resolves (or default-creates) the target enum, converts its mapping, and
fails with `duplicateProperty` when the property name is already present. -/
def applyModel (file_name : Str) (data : Data) : Model → LoadOut Data
  | .enumDecl name variants =>
    let existing := (sGet name data.enums).getD Enum.default
    let updated : Enum :=
      { existing with
        name := name
        name_camel_case := toCamelCase name
        variants_camel_case := variants.map toCamelCase
        variants := variants
        file := file_name }
    .ok ⟨sInsert name updated data.enums⟩
  | .propertyDecl onName name typ mapping =>
    let existing := (sGet onName data.enums).getD Enum.default
    match convMapping typ mapping with
    | .err e => .err e
    | .panicked e => .panicked e
    | .ok pairs =>
      let pf : Property := ⟨name, typ, sFromList pairs⟩
      if (sGet name existing.properties).isSome then .err (.duplicateProperty name)
      else
        .ok ⟨sInsert onName { existing with properties := sInsert name pf existing.properties } data.enums⟩

/-- Declaration list of a model file (`Either` iterator of `add_to_data`). -/
def modelList : ModelFile → List Model
  | .single m => [m]
  | .multiple ms => ms

/-- The declaration loop of `add_to_data` over one file. -/
def applyModels (file_name : Str) (data : Data) : List Model → LoadOut Data
  | [] => .ok data
  | m :: rest =>
    match applyModel file_name data m with
    | .ok d' => applyModels file_name d' rest
    | o => o

/-- Model of `add_to_data(file, file_name, data)`, on the parsed file. -/
def add_to_data (file : ModelFile) (file_name : Str) (data : Data) : LoadOut Data :=
  applyModels file_name data (modelList file)

/-- Scans `s` for the first `}`: its index, when present. -/
def closeBrace : Str → Option Nat
  | [] => none
  | c :: rest => if c = rbraceC then some 0 else (closeBrace rest).map (· + 1)

/-- Length of the regex match `\$\{[^}]+}` anchored at the start of `s`,
when there is one: `${`, then at least one non-`}` character, then `}`. -/
def matchAt : Str → Option Nat
  | c₁ :: c₂ :: rest =>
    if c₁ = dollarC then
      if c₂ = lbraceC then
        match closeBrace rest with
        | some j => if 1 ≤ j then some (j + 3) else none
        | none => none
      else none
    else none
  | _ => none

/-- Leftmost match of `EXPR_REGEX` in `s`: start and end offsets. -/
def findMatch : Str → Option (Nat × Nat)
  | [] => none
  | c :: rest =>
    match matchAt (c :: rest) with
    | some len => some (0, len)
    | none => (findMatch rest).map (fun p => (p.1 + 1, p.2 + 1))

/-- The range-collection loop of `expand_expr` (`frontend.rs:212-220`):
records each match shifted by `offset`, slices off the text up to the
match end, and increases `offset` by the match *length* only (`m.end() -
m.start()`), not by the amount sliced off.  Fuel-structured; every call
passes fuel exceeding the string length, which the recursion (each step
drops at least the match, which is nonempty) never exhausts. -/
def scanRangesF : Nat → Str → Nat → List (Nat × Nat)
  | 0, _, _ => []
  | fuel + 1, s, offset =>
    match findMatch s with
    | none => []
    | some (st, en) => (st + offset, en + offset) :: scanRangesF fuel (s.drop en) (offset + (en - st))

/-- Placeholder ranges collected for `expr` (initial offset 0). -/
def scanRanges (expr : Str) : List (Nat × Nat) := scanRangesF (expr.length + 1) expr 0

/-- Model of `str::replace(s, pat, rep)`: replaces all non-overlapping
occurrences of `pat`, left to right.  Fuel-structured as above; a
(never-occurring) empty pattern is left unreplaced. -/
def replaceAllF : Nat → Str → Str → Str → Str
  | 0, s, _, _ => s
  | fuel + 1, s, pat, rep =>
    if pat.isPrefixOf s ∧ pat ≠ [] then rep ++ replaceAllF fuel (s.drop pat.length) pat rep
    else
      match s with
      | [] => []
      | c :: s' => c :: replaceAllF fuel s' pat rep

/-- Replacement of all occurrences of `pat` in `s` by `rep`. -/
def replaceAll (s pat rep : Str) : Str := replaceAllF (s.length + 1) s pat rep

/-- The literal text `${n}` of a placeholder for name `n`
(`format!("${{{}}}", value)`). -/
def phTxt (n : Str) : Str := dollarC :: lbraceC :: (n ++ [rbraceC])

/-- The per-range loop of `expand_expr` (`frontend.rs:222-243`): for each
recorded range the name is sliced out of the *original* string at
`start + 2 .. end - 1`, looked up in the registry (an unknown name is the
`unknownEnumRef` error), and every current result is replaced once per
variant of the referenced enum. -/
def expandLoop (expr : Str) (data : Data) : List (Nat × Nat) → List Str → Except GenError (List Str)
  | [], results => .ok results
  | r :: rest, results =>
    let value := (expr.drop (r.1 + 2)).take (r.2 - 1 - (r.1 + 2))
    match sGet value data.enums with
    | none => .error (.unknownEnumRef value)
    | some e =>
      expandLoop expr data rest
        (results.flatMap (fun result => e.variants.map (fun v => replaceAll result (phTxt value) v)))

/-- Model of `expand_expr(expr, data)` (`frontend.rs:208-246`). -/
def expand_expr (expr : Str) (data : Data) : Except GenError (List Str) :=
  expandLoop expr data (scanRanges expr) [expr]

/-- Phase-A expansion of one variant list: `flat_map` of `expand_expr`
over the declared entries, in order. -/
def expandVariants (data : Data) : List Str → Except GenError (List Str)
  | [] => .ok []
  | v :: rest => do
    let e ← expand_expr v data
    let r ← expandVariants data rest
    .ok (e ++ r)

/-- Phase-A replacement lists (`frontend.rs:157-165`): computed for every
enum, in registry iteration order, against the *unmodified* registry.
The Rust code calls `expand_expr(..).unwrap()` here, so a failed
expansion is a panic; the pushed key is `e.name` (the `name` field, not
the registry key). -/
def phaseARepl (data : Data) : List (Str × Enum) → Except GenError (List (Str × List Str))
  | [] => .ok []
  | (_, e) :: rest => do
    let nv ← expandVariants data e.variants
    let r ← phaseARepl data rest
    .ok ((e.name, nv) :: r)

/-- Phase-A write-back (`frontend.rs:167-169`): `get_mut(..).unwrap()` —
a missing entry (possible when a property default-created its enum, whose
`name` field is then empty) is a panic. -/
def writeVariants (m : SMap Enum) : List (Str × List Str) → LoadOut (SMap Enum)
  | [] => .ok m
  | (n, nv) :: rest =>
    match sGet n m with
    | none => .panicked .unwrapNone
    | some e => writeVariants (sInsert n { e with variants := nv } m) rest

/-- Phase A of `expand`: variant lists. -/
def phaseA (data : Data) : LoadOut Data :=
  match phaseARepl data data.enums with
  | .error e => .panicked e
  | .ok reps =>
    match writeVariants data.enums reps with
    | .ok m => .ok ⟨m⟩
    | .err e => .err e
    | .panicked e => .panicked e

/-- Phase-B expansion of one property mapping (`frontend.rs:180-189`):
keys of every entry are expanded and concatenated; a `Custom` value is
expanded and contributes all its expansions, any other value contributes
itself once.  Errors propagate with `?` (a genuine error result). -/
def expandKV (data : Data) : List (Str × Value) → Except GenError (List Str × List Value)
  | [] => .ok ([], [])
  | (k, v) :: rest => do
    let ks ← expand_expr k data
    let vs ←
      match v with
      | .custom s => (expand_expr s data).map (List.map Value.custom)
      | v' => .ok [v']
    let (krest, vrest) ← expandKV data rest
    .ok (ks ++ krest, vs ++ vrest)

/-- Phase-B replacement records for the properties of one enum: only
`Custom`-typed properties take part. -/
def phaseBProps (data : Data) (ename : Str) : List (Str × Property) → Except GenError (List (Str × Str × List Str × List Value))
  | [] => .ok []
  | (_, pr) :: rest =>
    match pr.typ with
    | .custom _ => do
      let (ks, vs) ← expandKV data pr.mapping
      let r ← phaseBProps data ename rest
      .ok ((ename, pr.name, ks, vs) :: r)
    | _ => phaseBProps data ename rest

/-- Phase-B replacement records over all enums (`frontend.rs:172-192`),
computed against the post-phase-A registry before any write-back. -/
def phaseBRepl (data : Data) : List (Str × Enum) → Except GenError (List (Str × Str × List Str × List Value))
  | [] => .ok []
  | (_, e) :: rest => do
    let a ← phaseBProps data e.name e.properties
    let b ← phaseBRepl data rest
    .ok (a ++ b)

/-- Phase-B write-back of one record (`frontend.rs:194-199`): the property
mapping is rebuilt as `new_keys.zip(new_values).collect()` — positional
zip, truncated at the shorter sequence, later equal keys overwriting
earlier ones; `get_mut(..).unwrap()` on enum or property is a panic. -/
def writeProp (m : SMap Enum) (rep : Str × Str × List Str × List Value) : LoadOut (SMap Enum) :=
  match sGet rep.1 m with
  | none => .panicked .unwrapNone
  | some e =>
    match sGet rep.2.1 e.properties with
    | none => .panicked .unwrapNone
    | some pr =>
      .ok (sInsert rep.1
        { e with properties := sInsert rep.2.1 { pr with mapping := sFromList (rep.2.2.1.zip rep.2.2.2) } e.properties } m)

/-- Phase-B write-back loop. -/
def writeProps (m : SMap Enum) : List (Str × Str × List Str × List Value) → LoadOut (SMap Enum)
  | [] => .ok m
  | rep :: rest =>
    match writeProp m rep with
    | .ok m' => writeProps m' rest
    | o => o

/-- Phase B of `expand`: property keys and values. -/
def phaseB (data : Data) : LoadOut Data :=
  match phaseBRepl data data.enums with
  | .error e => .err e
  | .ok reps =>
    match writeProps data.enums reps with
    | .ok m => .ok ⟨m⟩
    | .err e => .err e
    | .panicked e => .panicked e

/-- Model of `expand(data)` (`frontend.rs:155-202`): Phase A (variant
lists), then Phase B (property keys and values) on the updated registry. -/
def expand (data : Data) : LoadOut Data :=
  match phaseA data with
  | .ok d1 => phaseB d1
  | o => o

/-- Outcome of the whole frontend (`from_slice`): success, a load error
wrapped with the offending file's name, an expansion error (wrapped with
the expansion-stage context in Rust), or a panic. -/
inductive PipeOut (α : Type) where
  | ok (a : α)
  | errLoad (file : Str) (e : GenError)
  | errExpand (e : GenError)
  | panicked (e : GenError)
deriving DecidableEq

/-- The per-file loop of `from_slice`, wrapping each file's error with that
file's name (`with_context`). -/
def loadFiles : List DataFile → Data → PipeOut Data
  | [], d => .ok d
  | f :: rest, d =>
    match add_to_data f.contents f.name d with
    | .ok d' => loadFiles rest d'
    | .err e => .errLoad f.name e
    | .panicked e => .panicked e

/-- Model of `from_slice(files)` (`frontend.rs:17-27`): load every file in
order into an empty registry, then run the expansion pass. -/
def from_slice (files : List DataFile) : PipeOut Data :=
  match loadFiles files ⟨[]⟩ with
  | .ok d =>
    (match expand d with
     | .ok d' => .ok d'
     | .err e => .errExpand e
     | .panicked e => .panicked e)
  | o => o

/-- The enum declaration emitted by `generate_enum_body` (`backend.rs:75-85`),
reduced to what the tokens determine: the type identifier and the ordered
variant identifiers.  The code emits `name_camel_case` and
`variants_camel_case` as stored in the registry. -/
structure EmittedEnum where
  name : Str
  variants : List Str
deriving DecidableEq

/-- Model of `generate_enum_body(e)`. -/
def generate_enum_body (e : Enum) : EmittedEnum :=
  ⟨e.name_camel_case, e.variants_camel_case⟩

/-- A match-arm value of an emitted accessor: the literal itself in an
exhaustive accessor, `Some(literal)` in a partial one. -/
inductive ArmValue where
  | plain (v : Value)
  | someV (v : Value)
deriving DecidableEq

/-- An emitted accessor function (`backend.rs:126-162`), reduced to what the
tokens determine: name, return type, the match arms in emission order
(camel-cased variant pattern and arm value), and whether a final
`_ => None` arm is emitted. -/
structure Accessor where
  name : Str
  typ : Ty
  arms : List (Str × ArmValue)
  defaultNone : Bool
deriving DecidableEq

/-- One accessor of `generate_enum_functions`: `exhaustive` is the length
comparison `property.mapping.len() == e.variants.len()`; arms follow the
mapping's own iteration order; arm values are wrapped in `Some` and a
default `None` arm is appended exactly when not exhaustive. -/
def generateAccessor (e : Enum) (p : Property) : Accessor :=
  let exhaustive : Bool := p.mapping.length == e.variants.length
  { name := p.name
    typ := p.typ
    arms := p.mapping.map (fun kv =>
      (toCamelCase kv.1, if exhaustive then ArmValue.plain kv.2 else ArmValue.someV kv.2))
    defaultNone := !exhaustive }

/-- Model of `generate_enum_functions(e)` (`backend.rs:121-170`): one
accessor per property, in property-map iteration order. -/
def generate_enum_functions (e : Enum) : List Accessor :=
  e.properties.map (fun kv => generateAccessor e kv.2)

/-- Tag agreement between a converted `Value` and a declared `Type`
(the invariant asserted by the specification). -/
def tagMatches : Value → Ty → Bool
  | .u32 _, .u32 => true
  | .f64 _, .f64 => true
  | .string _, .string => true
  | .slice _, .slice _ => true
  | .bool _, .bool => true
  | .custom _, .custom _ => true
  | _, _ => false

/-- An enum exactly as an `Enum` declaration in file `file` leaves it in the
registry: casing forms computed from the declared variant list. -/
def mkEnumD (n : Str) (vs : List Str) (file : Str) : Enum :=
  ⟨n, toCamelCase n, vs, vs.map toCamelCase, [], file⟩

/-- Variant list of enum `n` in the registry, `[]` when absent (used to
state cartesian-product conclusions). -/
def varsOf (data : Data) (n : Str) : List Str :=
  match sGet n data.enums with
  | some e => e.variants
  | none => []

/-- Cartesian tuples of a list of lists, leftmost list varying slowest. -/
def tuples : List (List Str) → List (List Str)
  | [] => [[]]
  | l :: ls => l.flatMap (fun x => (tuples ls).map (x :: ·))

/-- Registry entry of enum `n` in a pipeline outcome, when the pipeline
succeeded. -/
def enumOf (out : PipeOut Data) (n : Str) : Option Enum :=
  match out with
  | .ok d => sGet n d.enums
  | _ => none

/-- Converted value stored for key `k` of property `pn` on enum `en` in a
pipeline outcome. -/
def propValueOf (out : PipeOut Data) (en pn k : Str) : Option Value :=
  match enumOf out en with
  | some e =>
    (match sGet pn e.properties with
     | some pr => sGet k pr.mapping
     | none => none)
  | none => none

/-- String constants used by the concrete scenarios. -/
def aStr : Str := "a".data

/-- Enum name `b`. -/
def bStr : Str := "b".data

/-- Enum name `c`. -/
def cStr : Str := "c".data

/-- Enum name `e`. -/
def eStr : Str := "e".data

/-- File name `f`. -/
def fStr : Str := "f".data

/-- File name `g`. -/
def gStr : Str := "g".data

/-- Variant name `x`. -/
def xStr : Str := "x".data

/-- Variant name `y`. -/
def yStr : Str := "y".data

/-- Variant name `p`. -/
def pStr : Str := "p".data

/-- Variant name `q`. -/
def qStr : Str := "q".data

/-- Literal text `z`. -/
def zStr : Str := "z".data

/-- Literal text `_`. -/
def uscoreStr : Str := "_".data

/-- Property name `prop`. -/
def propStr : Str := "prop".data

/-- Enum name `missing` (never declared). -/
def missingStr : Str := "missing".data

/-- Literal text `_sword`. -/
def swordStr : Str := "_sword".data

/-- A two-enum registry: `a = [x, y]`, `b = [p, q]` (the specification's
expansion example). -/
def dataAB : Data :=
  ⟨[(aStr, mkEnumD aStr [xStr, yStr] fStr), (bStr, mkEnumD bStr [pStr, qStr] fStr)]⟩

/-- An enum `e = [a]` carrying a property `prop : u32` whose mapping's only
key is `b` — a key that is not a variant of `e`. -/
def c1Prop : Property := ⟨propStr, .u32, [(bStr, .u32 0)]⟩

/-- The owning enum of `c1Prop`. -/
def c1Enum : Enum :=
  ⟨eStr, toCamelCase eStr, [aStr], [toCamelCase aStr], [(propStr, c1Prop)], fStr⟩

/-- Input declaring `a = [x, y]` and a templated enum
`e = ["${a}_sword"]`. -/
def c3Files : List DataFile :=
  [⟨.multiple [.enumDecl aStr [xStr, yStr], .enumDecl eStr [phTxt aStr ++ swordStr]], fStr⟩]

/-- Input declaring one enum whose variant list holds a placeholder naming
the undeclared enum `missing`. -/
def c5Files : List DataFile :=
  [⟨.single (.enumDecl eStr [phTxt missingStr]), fStr⟩]

/-- Input declaring `e = [a]` and a `u32` property carrying a boolean
literal. -/
def c6Files : List DataFile :=
  [⟨.multiple [.enumDecl eStr [aStr],
               .propertyDecl eStr propStr .u32 [(.one aStr, .boolean true)]], fStr⟩]

/-- Input declaring `e = [a]` and a `slice<u32>` property carrying the
sequence literal `[1, 2, 3]`. -/
def c7Files : List DataFile :=
  [⟨.multiple [.enumDecl eStr [aStr],
               .propertyDecl eStr propStr (.slice .u32)
                 [(.one aStr, .seq (.cons (.number 1) (.cons (.number 2) (.cons (.number 3) .nil))))]], fStr⟩]

/-- A character that takes no part in placeholder syntax: ASCII (so that
the byte positions used by the Rust code agree with the character
positions of the embedding) and none of `$`, an opening brace, a closing
brace. -/
abbrev plainChar (c : Char) : Prop :=
  c.toNat < 128 ∧ c ≠ dollarC ∧ c ≠ lbraceC ∧ c ≠ rbraceC

/-- A string of plain characters. -/
abbrev plainStr (s : Str) : Prop := ∀ c ∈ s, plainChar c

/-- A usable enum name for a placeholder: nonempty and plain. -/
abbrev nameOk (n : Str) : Prop := n ≠ [] ∧ plainStr n

/-- Registry has enum `n`, and all its variants are plain strings. -/
def enumPlain (data : Data) (n : Str) : Prop :=
  ∃ e, sGet n data.enums = some e ∧ ∀ v ∈ e.variants, plainStr v

/-- The rendered template `${n₁}…${nₖ₋₁} mid ${nₖ} tail`: all placeholders
except the last contiguous from the start of the string, arbitrary plain
text only before the last placeholder and after it. -/
def renderTpl (ns : List Str) (mid lastN tl : Str) : Str :=
  (ns.map phTxt).flatten ++ mid ++ phTxt lastN ++ tl

/-- The ranges `expand_expr` records for a `renderTpl` string: one exact
range per leading placeholder, then the final placeholder's range. -/
def rangesFor (mid lastN : Str) : List Str → Nat → List (Nat × Nat)
  | [], ofs => [(ofs + mid.length, ofs + mid.length + (lastN.length + 3))]
  | n :: ns, ofs => (ofs, ofs + (n.length + 3)) :: rangesFor mid lastN ns (ofs + (n.length + 3))

/-- Every literal of a declared property mapping converts under the declared
type (so that `add_to_data` reaches its duplicate check without a panic). -/
def convertsAll (t : Ty) (m : List (VecOrOne Str × RonValue)) : Bool :=
  m.all (fun kv =>
    match Value.from_ron kv.2 t with
    | .ok _ => true
    | .error _ => false)

/-- Registry for the nested-template scenario: `a` holds the plain variants
`vA`, `b = ["${a}"]`, `c = ["${b}"]`. -/
def c9Data (vA : List Str) : Data :=
  ⟨[(aStr, mkEnumD aStr vA fStr),
    (bStr, mkEnumD bStr [phTxt aStr] fStr),
    (cStr, mkEnumD cStr [phTxt bStr] fStr)]⟩

/-- Variant list of enum `n` after a `LoadOut` step, when it succeeded. -/
def variantsAfterA (out : LoadOut Data) (n : Str) : Option (List Str) :=
  match out with
  | .ok d => (sGet n d.enums).map Enum.variants
  | _ => none

/-- Property mapping of `pn` on enum `en` after a `LoadOut` step. -/
def propMappingAfter (out : LoadOut Data) (en pn : Str) : Option (SMap Value) :=
  match out with
  | .ok d =>
    (match sGet en d.enums with
     | some e =>
       (match sGet pn e.properties with
        | some pr => some pr.mapping
        | none => none)
     | none => none)
  | _ => none

/-- The mismatched-length Phase-B scenario: enum `a` holds the plain
variants `v0 :: v1 :: rest`; enum `b` carries a `custom(a)` property whose
mapping pairs the template key `${a}` with the non-`Custom` value `n1` and
the plain key `z` with `n2` (`${a}` sorts before `z` in the `BTreeMap`). -/
def c10Data (v0 v1 : Str) (rest : List Str) (n1 n2 : Nat) : Data :=
  ⟨[(aStr, mkEnumD aStr (v0 :: v1 :: rest) fStr),
    (bStr, { mkEnumD bStr [pStr] fStr with
      properties := [(propStr, ⟨propStr, .custom aStr, [(phTxt aStr, .u32 n1), (zStr, .u32 n2)]⟩)] })]⟩

/-- Strictly-sorted well-formedness of an embedded `BTreeMap` (every real
`BTreeMap` state satisfies it; registry states are quantified over it
where iteration order matters). -/
abbrev sWF (m : SMap α) : Prop := m.Pairwise (fun a b => strLt a.1 b.1 = true)

/-- Identifier `ASword` (the casing transform of `${a}_sword`). -/
def aswordStr : Str := "ASword".data

/-- Identifier `XSword` (the casing transform of `x_sword`). -/
def xswordStr : Str := "XSword".data

/-- Identifier `YSword` (the casing transform of `y_sword`). -/
def yswordStr : Str := "YSword".data

/-- Expansion result `x_p`. -/
def xpStr : Str := "x_p".data

/-- Expansion result `x_q`. -/
def xqStr : Str := "x_q".data

/-- Expansion result `y_p`. -/
def ypStr : Str := "y_p".data

/-- Expansion result `y_q`. -/
def yqStr : Str := "y_q".data

end Feather

namespace Feather

/-- Unfolding of a placeholder text in front of a remainder. -/
theorem phTxt_append (n rest : Str) :
    phTxt n ++ rest = dollarC :: lbraceC :: (n ++ rbraceC :: rest) := by
  simp [phTxt]

/-- The first closing brace after a brace-free block sits right behind it. -/
theorem closeBrace_block (a t : Str) (ha : rbraceC ∉ a) :
    closeBrace (a ++ rbraceC :: t) = some a.length := by
  induction a with
  | nil => simp [closeBrace]
  | cons c a ih =>
    have hc : c ≠ rbraceC := fun h => ha (by simp [h])
    simp [closeBrace, if_neg hc, ih (fun h => ha (List.mem_cons_of_mem _ h))]

/-- The anchored regex match on a placeholder text has the placeholder's
length. -/
theorem matchAt_phTxt (n rest : Str) (hn : n ≠ []) (hb : rbraceC ∉ n) :
    matchAt (phTxt n ++ rest) = some (n.length + 3) := by
  rw [phTxt_append]
  have h1 : 1 ≤ n.length := List.length_pos.mpr hn
  simp [matchAt, closeBrace_block n rest hb, h1]

/-- No anchored match starts at a character other than `$`. -/
theorem matchAt_cons_ne (c : Char) (s : Str) (hc : c ≠ dollarC) :
    matchAt (c :: s) = none := by
  cases s with
  | nil => rfl
  | cons c₂ rest => simp [matchAt, hc]

/-- The leftmost match on a placeholder text starts at offset 0. -/
theorem findMatch_phTxt (n rest : Str) (hn : n ≠ []) (hb : rbraceC ∉ n) :
    findMatch (phTxt n ++ rest) = some (0, n.length + 3) := by
  have := matchAt_phTxt n rest hn hb
  rw [phTxt_append] at this ⊢
  simp [findMatch, this]

/-- Scanning past one non-`$` character shifts the match by one. -/
theorem findMatch_cons_ne (c : Char) (s : Str) (hc : c ≠ dollarC) :
    findMatch (c :: s) = (findMatch s).map (fun p => (p.1 + 1, p.2 + 1)) := by
  simp [findMatch, matchAt_cons_ne c s hc]

/-- A string without `$` has no match. -/
theorem findMatch_noDollar (s : Str) (h : ∀ c ∈ s, c ≠ dollarC) :
    findMatch s = none := by
  induction s with
  | nil => rfl
  | cons c s ih =>
    rw [findMatch_cons_ne c s (h c (by simp))]
    rw [ih (fun c hc => h c (by simp [hc]))]
    rfl

/-- Scanning past a `$`-free block shifts the match by the block length. -/
theorem findMatch_skip_block (p s : Str) (hp : ∀ c ∈ p, c ≠ dollarC) :
    findMatch (p ++ s) = (findMatch s).map (fun r => (r.1 + p.length, r.2 + p.length)) := by
  induction p with
  | nil =>
    simp only [List.nil_append, List.length_nil]
    cases findMatch s <;> simp
  | cons c p ih =>
    rw [List.cons_append, findMatch_cons_ne c _ (hp c (by simp))]
    rw [ih (fun c hc => hp c (by simp [hc]))]
    cases findMatch s with
    | none => rfl
    | some r =>
      simp only [Option.map_some', Option.some.injEq, Prod.mk.injEq, List.length_cons]
      omega

/-- Bound for the index of the first closing brace. -/
theorem closeBrace_lt (s : Str) (j : Nat) (h : closeBrace s = some j) : j < s.length := by
  induction s generalizing j with
  | nil => simp [closeBrace] at h
  | cons c s ih =>
    by_cases hc : c = rbraceC
    · simp [closeBrace, hc] at h
      simp only [List.length_cons]
      omega
    · simp only [closeBrace, if_neg hc] at h
      cases hj : closeBrace s with
      | none => rw [hj] at h; simp at h
      | some j' =>
        rw [hj] at h
        simp at h
        have := ih j' hj
        simp only [List.length_cons]
        omega

/-- Bounds for an anchored match length. -/
theorem matchAt_bounds (s : Str) (len : Nat) (h : matchAt s = some len) :
    0 < len ∧ len ≤ s.length := by
  match s with
  | [] => simp [matchAt] at h
  | [c] => simp [matchAt] at h
  | c₁ :: c₂ :: rest =>
    by_cases h₁ : c₁ = dollarC
    · by_cases h₂ : c₂ = lbraceC
      · simp only [matchAt, if_pos h₁, if_pos h₂] at h
        cases hj : closeBrace rest with
        | none => rw [hj] at h; simp at h
        | some j =>
          rw [hj] at h
          have hlt := closeBrace_lt rest j hj
          by_cases hj1 : 1 ≤ j
          · simp [hj1] at h
            simp only [List.length_cons]
            omega
          · simp [hj1] at h
      · simp [matchAt, h₁, h₂] at h
    · simp [matchAt, h₁] at h

/-- Bounds for the leftmost match. -/
theorem findMatch_bounds (s : Str) (st en : Nat) (h : findMatch s = some (st, en)) :
    st < en ∧ en ≤ s.length := by
  induction s generalizing st en with
  | nil => simp [findMatch] at h
  | cons c rest ih =>
    simp only [findMatch] at h
    cases hm : matchAt (c :: rest) with
    | some len =>
      rw [hm] at h
      simp only [Option.some.injEq, Prod.mk.injEq] at h
      obtain ⟨h1, h2⟩ := h
      have hb := matchAt_bounds (c :: rest) len hm
      simp only [List.length_cons] at hb ⊢
      omega
    | none =>
      rw [hm] at h
      cases hf : findMatch rest with
      | none => rw [hf] at h; simp at h
      | some r =>
        obtain ⟨a, b⟩ := r
        rw [hf] at h
        simp only [Option.map_some', Option.some.injEq, Prod.mk.injEq] at h
        obtain ⟨h1, h2⟩ := h
        have hr := ih a b hf
        simp only [List.length_cons]
        omega

/-- The range scan does not depend on the fuel, given enough of it. -/
theorem scanRangesF_stable (f₁ f₂ : Nat) (s : Str) (ofs : Nat)
    (h₁ : s.length < f₁) (h₂ : s.length < f₂) :
    scanRangesF f₁ s ofs = scanRangesF f₂ s ofs := by
  induction f₁ generalizing f₂ s ofs with
  | zero => omega
  | succ f₁ ih =>
    cases f₂ with
    | zero => omega
    | succ f₂ =>
      simp only [scanRangesF]
      cases hm : findMatch s with
      | none => rfl
      | some r =>
        obtain ⟨st, en⟩ := r
        have hb := findMatch_bounds s st en hm
        simp only
        rw [ih f₂ (s.drop en) (ofs + (en - st)) (by simp; omega) (by simp; omega)]

/-- A string without a match scans to no ranges. -/
theorem scanRangesF_none (fuel : Nat) (s : Str) (ofs : Nat) (h : findMatch s = none) :
    scanRangesF fuel s ofs = [] := by
  cases fuel with
  | zero => rfl
  | succ f => simp [scanRangesF, h]

/-- Plain strings contain no dollar character. -/
theorem plainStr_noDollar (s : Str) (h : plainStr s) : ∀ c ∈ s, c ≠ dollarC :=
  fun c hc => (h c hc).2.1

/-- Plain strings contain no closing brace. -/
theorem plainStr_noBrace (s : Str) (h : plainStr s) : rbraceC ∉ s :=
  fun hc => (h rbraceC hc).2.2.2 rfl

/-- Unfolding of the rendered template at a leading placeholder. -/
theorem renderTpl_cons (n : Str) (ns : List Str) (mid lastN tl : Str) :
    renderTpl (n :: ns) mid lastN tl = phTxt n ++ renderTpl ns mid lastN tl := by
  simp [renderTpl]

/-- Unfolding of the rendered template with no leading placeholders. -/
theorem renderTpl_nil (mid lastN tl : Str) :
    renderTpl [] mid lastN tl = mid ++ (phTxt lastN ++ tl) := by
  simp [renderTpl]

/-- The range scan of a rendered template records one exact range per
leading placeholder and then the final placeholder's range: for the
leading block the broken offset arithmetic never errs, because each
leading match starts at offset 0 of its slice. -/
theorem scanRanges_tpl (mid lastN tl : Str) (hmid : plainStr mid) (htl : plainStr tl)
    (hlast : nameOk lastN) :
    ∀ (ns : List Str) (fuel ofs : Nat), (∀ n ∈ ns, nameOk n) →
      (renderTpl ns mid lastN tl).length < fuel →
      scanRangesF fuel (renderTpl ns mid lastN tl) ofs = rangesFor mid lastN ns ofs := by
  intro ns
  induction ns with
  | nil =>
    intro fuel ofs _ hfuel
    rw [renderTpl_nil] at hfuel ⊢
    have hfm : findMatch (mid ++ (phTxt lastN ++ tl)) =
        some (0 + mid.length, (lastN.length + 3) + mid.length) := by
      rw [findMatch_skip_block mid _ (plainStr_noDollar mid hmid)]
      rw [findMatch_phTxt lastN tl hlast.1 (plainStr_noBrace lastN hlast.2)]
      rfl
    cases fuel with
    | zero => omega
    | succ f =>
      simp only [scanRangesF, hfm]
      have hdrop : (mid ++ (phTxt lastN ++ tl)).drop ((lastN.length + 3) + mid.length) = tl := by
        have : mid ++ (phTxt lastN ++ tl) = (mid ++ phTxt lastN) ++ tl := by simp
        rw [this]
        exact List.drop_left' (by simp [phTxt]; omega)
      rw [hdrop, scanRangesF_none f tl _ (findMatch_noDollar tl (plainStr_noDollar tl htl))]
      simp only [rangesFor, List.cons.injEq, Prod.mk.injEq, and_true]
      omega
  | cons n ns ih =>
    intro fuel ofs hns hfuel
    rw [renderTpl_cons] at hfuel ⊢
    have hn := hns n (by simp)
    have hfm := findMatch_phTxt n (renderTpl ns mid lastN tl) hn.1 (plainStr_noBrace n hn.2)
    cases fuel with
    | zero => omega
    | succ f =>
      simp only [scanRangesF, hfm]
      have hdrop : (phTxt n ++ renderTpl ns mid lastN tl).drop (n.length + 3) =
          renderTpl ns mid lastN tl := List.drop_left' (by simp [phTxt])
      rw [hdrop]
      have hlen : (renderTpl ns mid lastN tl).length < f := by
        have := hfuel
        simp only [List.length_append, phTxt, List.length_cons, List.length_append,
          List.length_nil] at this
        omega
      rw [ih f (ofs + (n.length + 3 - 0)) (fun m hm => hns m (by simp [hm])) hlen]
      simp only [rangesFor, Nat.sub_zero, List.cons.injEq, Prod.mk.injEq]
      refine ⟨⟨by omega, by omega⟩, trivial⟩

/-- Slicing `start + 2 .. end - 1` out of the original string at an exact
placeholder range recovers the placeholder's name. -/
theorem extract_at (pre n rest : Str) :
    ((pre ++ phTxt n ++ rest).drop (pre.length + 2)).take
        ((pre.length + (n.length + 3)) - 1 - (pre.length + 2)) = n := by
  have h1 : pre ++ phTxt n ++ rest = (pre ++ [dollarC, lbraceC]) ++ (n ++ rbraceC :: rest) := by
    simp [phTxt]
  rw [h1, List.drop_left' (by simp)]
  rw [show (pre.length + (n.length + 3)) - 1 - (pre.length + 2) = n.length by omega]
  exact List.take_left' rfl

/-- Length of a placeholder text. -/
theorem phTxt_length (n : Str) : (phTxt n).length = n.length + 3 := by
  simp [phTxt]

/-- Plainness of a concatenation. -/
theorem plainStr_append (a b : Str) (ha : plainStr a) (hb : plainStr b) : plainStr (a ++ b) := by
  intro c hc
  rcases List.mem_append.mp hc with h | h
  · exact ha c h
  · exact hb c h

/-- Congruence for `flatMap` over the members of a list. -/
theorem flatMapCongr {α β : Type} (l : List α) (f g : α → List β)
    (h : ∀ a ∈ l, f a = g a) : l.flatMap f = l.flatMap g := by
  induction l with
  | nil => rfl
  | cons a l ih =>
    simp only [List.flatMap_cons]
    rw [h a (by simp), ih (fun a ha => h a (by simp [ha]))]

/-- Replacement in the empty string. -/
theorem replaceAll_nil (pat rep : Str) : replaceAll [] pat rep = [] := by
  cases pat <;> simp [replaceAll, replaceAllF, List.isPrefixOf]

/-- The replacement loop does not depend on the fuel, given enough of it. -/
theorem replaceAllF_stable (f₁ f₂ : Nat) (s pat rep : Str)
    (h₁ : s.length < f₁) (h₂ : s.length < f₂) :
    replaceAllF f₁ s pat rep = replaceAllF f₂ s pat rep := by
  induction f₁ generalizing f₂ s with
  | zero => omega
  | succ f₁ ih =>
    cases f₂ with
    | zero => omega
    | succ f₂ =>
      simp only [replaceAllF]
      by_cases hcond : pat.isPrefixOf s = true ∧ pat ≠ []
      · rw [if_pos hcond, if_pos hcond]
        have hle : pat.length ≤ s.length :=
          (List.isPrefixOf_iff_prefix.mp hcond.1).length_le
        have hpos : 0 < pat.length := List.length_pos.mpr hcond.2
        rw [ih f₂ (s.drop pat.length) (by simp; omega) (by simp; omega)]
      · rw [if_neg hcond, if_neg hcond]
        cases s with
        | nil => rfl
        | cons c s' =>
          simp only [List.length_cons] at h₁ h₂
          show c :: replaceAllF f₁ s' pat rep = c :: replaceAllF f₂ s' pat rep
          rw [ih f₂ s' (by omega) (by omega)]

/-- Replacement walks past a head character where the pattern does not
match. -/
theorem replaceAll_cons_ne (c : Char) (s pat rep : Str)
    (h : ¬ (pat.isPrefixOf (c :: s) = true ∧ pat ≠ [])) :
    replaceAll (c :: s) pat rep = c :: replaceAll s pat rep := by
  show replaceAllF ((c :: s).length + 1) (c :: s) pat rep = _
  simp only [replaceAllF, List.length_cons, if_neg h]
  rfl

/-- Replacement fires on a leading occurrence of the pattern. -/
theorem replaceAll_self (pat s rep : Str) (hp : pat ≠ []) :
    replaceAll (pat ++ s) pat rep = rep ++ replaceAll s pat rep := by
  show replaceAllF ((pat ++ s).length + 1) (pat ++ s) pat rep = _
  have hpre : pat.isPrefixOf (pat ++ s) = true :=
    List.isPrefixOf_iff_prefix.mpr (List.prefix_append pat s)
  simp only [replaceAllF, if_pos (And.intro hpre hp), List.drop_left]
  have hpos : 0 < pat.length := List.length_pos.mpr hp
  rw [replaceAllF_stable ((pat ++ s).length) (s.length + 1) s pat rep (by simp; omega) (by omega)]
  rfl

/-- Replacement of a `$`-led pattern walks past a `$`-free block. -/
theorem replaceAll_skip (p s pat' rep : Str) (hp : ∀ c ∈ p, c ≠ dollarC) :
    replaceAll (p ++ s) (dollarC :: pat') rep = p ++ replaceAll s (dollarC :: pat') rep := by
  induction p with
  | nil => simp
  | cons c p ih =>
    rw [List.cons_append]
    rw [replaceAll_cons_ne c (p ++ s) (dollarC :: pat') rep (by
      intro hcond
      have : (dollarC == c) = true ∧ pat'.isPrefixOf (p ++ s) = true := by
        simpa [List.isPrefixOf] using hcond.1
      exact (hp c (by simp)) (by
        have := this.1
        simp at this
        exact this.symm))]
    rw [ih (fun c hc => hp c (by simp [hc]))]
    simp

/-- Replacement of a `$`-led pattern in a `$`-free string is the
identity. -/
theorem replaceAll_plain_id (s pat' rep : Str) (h : ∀ c ∈ s, c ≠ dollarC) :
    replaceAll s (dollarC :: pat') rep = s := by
  have := replaceAll_skip s [] pat' rep h
  simpa [replaceAll_nil] using this

/-- A name terminated by `}` determines the brace-free block it follows. -/
theorem nameClose_inj (a : Str) : ∀ (b s : Str), rbraceC ∉ a → rbraceC ∉ b →
    (a ++ [rbraceC]).isPrefixOf (b ++ rbraceC :: s) = true → a = b := by
  induction a with
  | nil =>
    intro b s _ hb h
    cases b with
    | nil => rfl
    | cons d b' =>
      simp only [List.nil_append, List.cons_append, List.isPrefixOf, Bool.and_eq_true,
        beq_iff_eq] at h
      exact absurd h.1.symm (fun hd => hb (by simp [hd]))
  | cons c a' ih =>
    intro b s ha hb h
    cases b with
    | nil =>
      simp only [List.cons_append, List.nil_append, List.isPrefixOf, Bool.and_eq_true,
        beq_iff_eq] at h
      exact absurd h.1 (fun hd => ha (by simp [hd]))
    | cons d b' =>
      simp only [List.cons_append, List.isPrefixOf, Bool.and_eq_true, beq_iff_eq] at h
      have := ih b' s (fun hc => ha (by simp [hc])) (fun hc => hb (by simp [hc])) h.2
      rw [h.1, this]

/-- The text of one placeholder never starts at the position of a
placeholder with a different name. -/
theorem phTxt_not_pre (n m s : Str) (hne : n ≠ m) (hn : rbraceC ∉ n) (hm : rbraceC ∉ m) :
    (phTxt n).isPrefixOf (phTxt m ++ s) = false := by
  rw [phTxt_append]
  cases h : (phTxt n).isPrefixOf (dollarC :: lbraceC :: (m ++ rbraceC :: s)) with
  | false => rfl
  | true =>
    have h' : (n ++ [rbraceC]).isPrefixOf (m ++ rbraceC :: s) = true := by
      simpa [phTxt, List.isPrefixOf] using h
    exact absurd (nameClose_inj n m s hn hm h') hne

/-- Replacement of one placeholder's text walks past a differently named
placeholder unchanged. -/
theorem replaceAll_ph_other (n m s rep : Str) (hne : n ≠ m) (hn : rbraceC ∉ n)
    (hm : plainStr m) :
    replaceAll (phTxt m ++ s) (phTxt n) rep = phTxt m ++ replaceAll s (phTxt n) rep := by
  have h1 : phTxt m ++ s = dollarC :: ((lbraceC :: (m ++ [rbraceC])) ++ s) := by
    simp [phTxt]
  rw [h1]
  rw [replaceAll_cons_ne _ _ _ rep (by
    intro hcond
    have := hcond.1
    rw [show dollarC :: ((lbraceC :: (m ++ [rbraceC])) ++ s) = phTxt m ++ s by simp [phTxt]] at this
    rw [phTxt_not_pre n m s hne hn (plainStr_noBrace m hm)] at this
    exact Bool.false_ne_true this)]
  rw [show phTxt n = dollarC :: (lbraceC :: (n ++ [rbraceC])) from by simp [phTxt]]
  rw [replaceAll_skip _ s _ rep (by
    intro c hc
    rcases List.mem_cons.mp hc with h | h
    · rw [h]; decide
    · rcases List.mem_append.mp h with h | h
      · exact (hm c h).2.1
      · simp at h
        rw [h]; decide)]
  simp [phTxt]

/-- Replacement of a placeholder absent from a rendered template leaves the
template unchanged. -/
theorem replaceAll_tpl_absent (n : Str) (ns : List Str) (mid lastN tl rep : Str)
    (hnotin : n ∉ ns) (hne : n ≠ lastN) (hn : nameOk n) (hns : ∀ m ∈ ns, nameOk m)
    (hlast : nameOk lastN) (hmid : plainStr mid) (htl : plainStr tl) :
    replaceAll (renderTpl ns mid lastN tl) (phTxt n) rep = renderTpl ns mid lastN tl := by
  induction ns with
  | nil =>
    rw [renderTpl_nil]
    rw [show phTxt n = dollarC :: (lbraceC :: (n ++ [rbraceC])) from by simp [phTxt]]
    rw [replaceAll_skip mid _ _ rep (plainStr_noDollar mid hmid)]
    rw [show dollarC :: (lbraceC :: (n ++ [rbraceC])) = phTxt n from by simp [phTxt]]
    rw [replaceAll_ph_other n lastN tl rep hne (plainStr_noBrace n hn.2) hlast.2]
    rw [show phTxt n = dollarC :: (lbraceC :: (n ++ [rbraceC])) from by simp [phTxt]]
    rw [replaceAll_plain_id tl _ rep (plainStr_noDollar tl htl)]
  | cons m ms ih =>
    rw [renderTpl_cons]
    have hnem : n ≠ m := fun h => hnotin (by simp [h])
    rw [replaceAll_ph_other n m _ rep hnem (plainStr_noBrace n hn.2) (hns m (by simp)).2]
    rw [ih (fun h => hnotin (by simp [h])) (fun m hm => hns m (by simp [hm]))]

/-- The `${…}` text, as a cons cell (for the `$`-led-pattern lemmas). -/
theorem phTxt_cons (n : Str) : phTxt n = dollarC :: (lbraceC :: (n ++ [rbraceC])) := by
  simp [phTxt]

/-- A placeholder text is never empty. -/
theorem phTxt_ne_nil (n : Str) : phTxt n ≠ [] := by
  simp [phTxt]

/-- One full replacement step on a string made of a plain prefix, the
pattern's own placeholder, and a remainder free of that placeholder. -/
theorem replaceAll_step (p n : Str) (ns : List Str) (mid lastN tl v : Str)
    (hp : plainStr p) (hn : nameOk n) (hnotin : n ∉ ns) (hne : n ≠ lastN)
    (hns : ∀ m ∈ ns, nameOk m) (hlast : nameOk lastN) (hmid : plainStr mid)
    (htl : plainStr tl) :
    replaceAll (p ++ (phTxt n ++ renderTpl ns mid lastN tl)) (phTxt n) v
      = p ++ (v ++ renderTpl ns mid lastN tl) := by
  rw [phTxt_cons n]
  rw [replaceAll_skip p _ _ v (plainStr_noDollar p hp)]
  rw [← phTxt_cons n]
  rw [replaceAll_self (phTxt n) _ v (phTxt_ne_nil n)]
  rw [replaceAll_tpl_absent n ns mid lastN tl v hnotin hne hn hns hlast hmid htl]

/-- The final replacement step: plain prefix, then `mid`, then the last
placeholder, then the plain tail. -/
theorem replaceAll_last (p mid lastN tl v : Str)
    (hp : plainStr p) (hmid : plainStr mid) (htl : plainStr tl) :
    replaceAll (p ++ renderTpl [] mid lastN tl) (phTxt lastN) v
      = (p ++ mid) ++ (v ++ tl) := by
  rw [renderTpl_nil]
  rw [show p ++ (mid ++ (phTxt lastN ++ tl)) = (p ++ mid) ++ (phTxt lastN ++ tl) by simp]
  rw [phTxt_cons lastN]
  rw [replaceAll_skip (p ++ mid) _ _ v
    (plainStr_noDollar _ (plainStr_append p mid hp hmid))]
  rw [← phTxt_cons lastN]
  rw [replaceAll_self (phTxt lastN) tl v (phTxt_ne_nil lastN)]
  rw [phTxt_cons lastN]
  rw [replaceAll_plain_id tl _ v (plainStr_noDollar tl htl)]

/-- The per-range loop of `expand_expr` on a rendered template: every step
multiplies the current results by the referenced enum's variant list, the
leftmost placeholder outermost, ending in the cartesian product. -/
theorem expandLoop_tpl (data : Data) (mid lastN tl : Str)
    (hmid : plainStr mid) (htl : plainStr tl)
    (hlastOk : nameOk lastN) (hlastIn : enumPlain data lastN) :
    ∀ (ns : List Str) (pre : Str) (pres : List Str),
      (∀ n ∈ ns, nameOk n ∧ enumPlain data n) →
      (ns ++ [lastN]).Nodup →
      (∀ p ∈ pres, plainStr p) →
      expandLoop (pre ++ renderTpl ns mid lastN tl) data (rangesFor mid lastN ns pre.length)
        (pres.map (fun p => p ++ renderTpl ns mid lastN tl))
      = .ok (pres.flatMap (fun p => (tuples (ns.map (varsOf data))).flatMap (fun tvs =>
          (varsOf data lastN).map (fun v => p ++ tvs.flatten ++ mid ++ v ++ tl)))) := by
  intro ns
  induction ns with
  | nil =>
    intro pre pres _ _ hpres
    obtain ⟨e, he, hvars⟩ := hlastIn
    have hv : varsOf data lastN = e.variants := by simp [varsOf, he]
    have hexpr : pre ++ renderTpl [] mid lastN tl = (pre ++ mid) ++ phTxt lastN ++ tl := by
      simp [renderTpl]
    have hex := extract_at (pre ++ mid) lastN tl
    rw [List.length_append] at hex
    rw [← hexpr] at hex
    simp only [rangesFor, expandLoop, hex, he]
    congr 1
    rw [List.flatMap_map]
    rw [flatMapCongr pres _
      (fun p => e.variants.map (fun v => (p ++ mid) ++ (v ++ tl)))
      (fun p hp => List.map_congr_left (fun v _ =>
        replaceAll_last p mid lastN tl v (hpres p hp) hmid htl))]
    simp only [List.map_nil, tuples, List.flatMap_cons, List.flatMap_nil, List.append_nil,
      List.flatten_nil, hv]
    exact flatMapCongr pres _ _ (fun p _ => List.map_congr_left (fun v _ => by simp))
  | cons n ns ih =>
    intro pre pres hns hnd hpres
    obtain ⟨hnOk, e, he, hvars⟩ := hns n (by simp)
    have hv : varsOf data n = e.variants := by simp [varsOf, he]
    have hexpr : pre ++ renderTpl (n :: ns) mid lastN tl
        = pre ++ phTxt n ++ renderTpl ns mid lastN tl := by
      simp [renderTpl_cons]
    have hex := extract_at pre n (renderTpl ns mid lastN tl)
    rw [← hexpr] at hex
    simp only [rangesFor, expandLoop, hex, he]
    have hnotin : n ∉ ns := by
      have := hnd
      simp only [List.cons_append, List.nodup_cons] at this
      exact fun h => this.1 (by simp [h])
    have hnel : n ≠ lastN := by
      have := hnd
      simp only [List.cons_append, List.nodup_cons] at this
      exact fun h => this.1 (by simp [h])
    have hrepl : (pres.map (fun p => p ++ renderTpl (n :: ns) mid lastN tl)).flatMap
          (fun result => e.variants.map (fun v => replaceAll result (phTxt n) v))
        = (pres.flatMap (fun p => e.variants.map (fun v => p ++ v))).map
          (fun p => p ++ renderTpl ns mid lastN tl) := by
      rw [List.flatMap_map]
      rw [List.map_flatMap]
      refine flatMapCongr pres _ _ (fun p hp => ?_)
      rw [List.map_map]
      refine List.map_congr_left (fun v _ => ?_)
      show replaceAll (p ++ renderTpl (n :: ns) mid lastN tl) (phTxt n) v = _
      rw [renderTpl_cons]
      rw [replaceAll_step p n ns mid lastN tl v (hpres p hp) hnOk hnotin hnel
        (fun m hm => (hns m (by simp [hm])).1) hlastOk hmid htl]
      simp
    rw [hrepl]
    have hpre' : (pre ++ phTxt n).length = pre.length + (n.length + 3) := by
      simp [phTxt_length]
    have hnd' : (ns ++ [lastN]).Nodup := by
      have := hnd
      simp only [List.cons_append, List.nodup_cons] at this
      exact this.2
    have hpres' : ∀ p ∈ pres.flatMap (fun p => e.variants.map (fun v => p ++ v)), plainStr p := by
      intro p hp
      rw [List.mem_flatMap] at hp
      obtain ⟨p₀, hp₀, hpmem⟩ := hp
      rw [List.mem_map] at hpmem
      obtain ⟨v, hvmem, rfl⟩ := hpmem
      exact plainStr_append p₀ v (hpres p₀ hp₀) (hvars v hvmem)
    have := ih (pre ++ phTxt n) (pres.flatMap (fun p => e.variants.map (fun v => p ++ v)))
      (fun m hm => hns m (by simp [hm])) hnd' hpres'
    rw [hpre'] at this
    rw [show pre ++ phTxt n ++ renderTpl ns mid lastN tl
        = pre ++ renderTpl (n :: ns) mid lastN tl from hexpr.symm] at this
    rw [this]
    congr 1
    rw [List.flatMap_assoc]
    refine flatMapCongr pres _ _ (fun p _ => ?_)
    rw [List.flatMap_map]
    simp only [List.map_cons, tuples, hv]
    rw [List.flatMap_assoc]
    refine flatMapCongr e.variants _ _ (fun v _ => ?_)
    rw [List.flatMap_map]
    refine flatMapCongr (tuples (ns.map (varsOf data))) _ _ (fun tvs _ => ?_)
    refine List.map_congr_left (fun w _ => ?_)
    simp [List.flatten_cons]

/-- Packaged expansion of a rendered template: `expand_expr` returns the
cartesian product of the referenced enums' variant lists, leftmost
placeholder varying slowest. -/
theorem expandRender (data : Data) (ns : List Str) (mid lastN tl : Str)
    (hns : ∀ n ∈ ns, nameOk n ∧ enumPlain data n)
    (hlastOk : nameOk lastN) (hlastIn : enumPlain data lastN)
    (hnd : (ns ++ [lastN]).Nodup)
    (hmid : plainStr mid) (htl : plainStr tl) :
    expand_expr (renderTpl ns mid lastN tl) data
      = .ok ((tuples (ns.map (varsOf data))).flatMap (fun tvs =>
          (varsOf data lastN).map (fun v => tvs.flatten ++ mid ++ v ++ tl))) := by
  unfold expand_expr scanRanges
  rw [scanRanges_tpl mid lastN tl hmid htl hlastOk ns _ 0 (fun n h => (hns n h).1) (by omega)]
  have h := expandLoop_tpl data mid lastN tl hmid htl hlastOk hlastIn ns [] [[]]
    hns hnd (by intro p hp; simp at hp; subst hp; intro c hc; cases hc)
  simp only [List.nil_append, List.length_nil, List.map_cons, List.map_nil,
    List.flatMap_cons, List.flatMap_nil, List.append_nil] at h
  rw [h]

/-- Expansion of a template that is exactly one placeholder: the referenced
enum's variant list verbatim (each variant replaces the whole string,
whatever characters it contains). -/
theorem expand_expr_single (data : Data) (n : Str) (e : Enum) (hok : nameOk n)
    (he : sGet n data.enums = some e) :
    expand_expr (phTxt n) data = .ok e.variants := by
  have hfm : findMatch (phTxt n) = some (0, n.length + 3) := by
    rw [← List.append_nil (phTxt n)]
    exact findMatch_phTxt n [] hok.1 (plainStr_noBrace n hok.2)
  have h1 : ∀ fuel, scanRangesF (fuel + 1) (phTxt n) 0 = [(0, n.length + 3)] := by
    intro fuel
    simp only [scanRangesF, hfm]
    rw [show (phTxt n).drop (n.length + 3) = [] from by
      rw [← phTxt_length n]; exact List.drop_length _]
    rw [scanRangesF_none fuel [] _ rfl]
  have hscan : scanRanges (phTxt n) = [(0, n.length + 3)] := by
    unfold scanRanges
    exact h1 (phTxt n).length
  have hex := extract_at [] n []
  simp only [List.length_nil, List.nil_append, List.append_nil, Nat.zero_add] at hex
  unfold expand_expr
  rw [hscan]
  simp only [expandLoop, Nat.zero_add]
  rw [hex, he]
  simp only [List.flatMap_cons, List.flatMap_nil, List.append_nil]
  have hrep : ∀ v, replaceAll (phTxt n) (phTxt n) v = v := by
    intro v
    nth_rewrite 1 [← List.append_nil (phTxt n)]
    rw [replaceAll_self (phTxt n) [] v (phTxt_ne_nil n), replaceAll_nil, List.append_nil]
  rw [List.map_congr_left (fun v _ => hrep v)]
  simp

/-- A string without `$` expands to itself alone. -/
theorem expand_expr_noDollar (v : Str) (data : Data) (h : ∀ c ∈ v, c ≠ dollarC) :
    expand_expr v data = .ok [v] := by
  unfold expand_expr scanRanges
  rw [scanRangesF_none _ v 0 (findMatch_noDollar v h)]
  rfl

/-- A list of `$`-free strings expands entrywise to itself. -/
theorem expandVariants_plain (data : Data) (vs : List Str)
    (h : ∀ v ∈ vs, ∀ c ∈ v, c ≠ dollarC) :
    expandVariants data vs = .ok vs := by
  induction vs with
  | nil => rfl
  | cons v vs ih =>
    simp only [expandVariants, expand_expr_noDollar v data (h v (by simp)),
      ih (fun v hv => h v (by simp [hv]))]
    rfl

/-- Bind of a successful `Except` computation. -/
theorem exBind_ok {ε α β : Type} (a : α) (f : α → Except ε β) :
    (Except.ok a : Except ε α) >>= f = f a := rfl

/-- Claim C2, amended: the cartesian-product expansion holds for templates
whose placeholders — each naming a distinct enum of the registry, with a
nonempty plain ASCII name, whose variants are plain ASCII strings — are
contiguous from the start of the string except that arbitrary plain text
may precede the *last* placeholder and follow it.  (The counterexample
shows the claim fails once text precedes an earlier placeholder: the
scan's offset bookkeeping then mis-slices the later names.)  For such
templates `expand_expr` returns exactly the cartesian product of the
referenced enums' variant lists, substituted into the string, with the
leftmost placeholder varying slowest. -/
theorem c2_amended (data : Data) (ns : List Str) (mid lastN tl : Str)
    (hns : ∀ n ∈ ns, nameOk n ∧ enumPlain data n)
    (hlastOk : nameOk lastN) (hlastIn : enumPlain data lastN)
    (hnd : (ns ++ [lastN]).Nodup)
    (hmid : plainStr mid) (htl : plainStr tl) :
    expand_expr (renderTpl ns mid lastN tl) data
      = .ok ((tuples (ns.map (varsOf data))).flatMap (fun tvs =>
          (varsOf data lastN).map (fun v => tvs.flatten ++ mid ++ v ++ tl))) :=
  expandRender data ns mid lastN tl hns hlastOk hlastIn hnd hmid htl

/-- Witness for C2 (amended): the specification's own example — registry
`a = [x, y]`, `b = [p, q]`, template `${a}_${b}` — expands to exactly
`[x_p, x_q, y_p, y_q]`, in that order. -/
theorem c2_witness :
    expand_expr (renderTpl [aStr] uscoreStr bStr []) dataAB
      = .ok [xpStr, xqStr, ypStr, yqStr] := by
  have h := c2_amended dataAB [aStr] uscoreStr bStr []
    (by
      intro n hn
      simp only [List.mem_singleton] at hn
      subst hn
      exact ⟨by decide, ⟨mkEnumD aStr [xStr, yStr] fStr, rfl, by decide⟩⟩)
    (by decide)
    ⟨mkEnumD bStr [pStr, qStr] fStr, rfl, by decide⟩
    (by decide) (by decide) (by decide)
  rw [h]
  decide

/-- Claim C9: in the registry `a = vA` (plain variants), `b = ["${a}"]`,
`c = ["${b}"]`, the variant-list phase resolves every placeholder against
the variant lists as they stood before the pass: `b` becomes `vA`, while
`c` becomes `["${a}"]` — the still-unexpanded template string that was
`b`'s pre-pass variant — and is not recursively expanded to `vA`. -/
theorem c9_no_recursive_expansion (vA : List Str) (h : ∀ v ∈ vA, plainStr v) :
    variantsAfterA (phaseA (c9Data vA)) bStr = some vA
    ∧ variantsAfterA (phaseA (c9Data vA)) cStr = some [phTxt aStr]
    ∧ variantsAfterA (phaseA (c9Data vA)) aStr = some vA := by
  have hnd : ∀ v ∈ vA, ∀ c ∈ v, c ≠ dollarC := fun v hv c hc => (h v hv c hc).2.1
  have hA : expandVariants (c9Data vA) vA = .ok vA := expandVariants_plain _ _ hnd
  have hB : expand_expr (phTxt aStr) (c9Data vA) = .ok vA :=
    expand_expr_single (c9Data vA) aStr (mkEnumD aStr vA fStr) (by decide) rfl
  have hC : expand_expr (phTxt bStr) (c9Data vA) = .ok [phTxt aStr] :=
    expand_expr_single (c9Data vA) bStr (mkEnumD bStr [phTxt aStr] fStr) (by decide) rfl
  have hrepl : phaseARepl (c9Data vA) (c9Data vA).enums
      = .ok [(aStr, vA), (bStr, vA), (cStr, [phTxt aStr])] := by
    show phaseARepl (c9Data vA)
        [(aStr, mkEnumD aStr vA fStr), (bStr, mkEnumD bStr [phTxt aStr] fStr),
         (cStr, mkEnumD cStr [phTxt bStr] fStr)] = _
    simp only [phaseARepl, expandVariants, mkEnumD, hA, hB, hC, exBind_ok,
      replaceAll_nil, List.append_nil]
  have hph : phaseA (c9Data vA) = .ok ⟨[(aStr, mkEnumD aStr vA fStr),
      (bStr, ⟨bStr, toCamelCase bStr, vA, [phTxt aStr].map toCamelCase, [], fStr⟩),
      (cStr, ⟨cStr, toCamelCase cStr, [phTxt aStr], [phTxt bStr].map toCamelCase, [], fStr⟩)]⟩ := by
    unfold phaseA
    rw [hrepl]
    rfl
  exact ⟨by rw [hph]; rfl, by rw [hph]; rfl, by rw [hph]; rfl⟩

/-- Witness for C9: the nested-template registry with `a = [x, y]`. -/
theorem c9_witness :
    variantsAfterA (phaseA (c9Data [xStr, yStr])) bStr = some [xStr, yStr]
    ∧ variantsAfterA (phaseA (c9Data [xStr, yStr])) cStr = some [phTxt aStr]
    ∧ variantsAfterA (phaseA (c9Data [xStr, yStr])) aStr = some [xStr, yStr] :=
  c9_no_recursive_expansion [xStr, yStr] (by decide)

/-- Lookup at the head key. -/
theorem sGet_cons_self (k : Str) (v : α) (m : SMap α) : sGet k ((k, v) :: m) = some v := by
  simp [sGet]

/-- Lookup walks past a different head key. -/
theorem sGet_cons_ne (k k' : Str) (v : α) (m : SMap α) (h : k ≠ k') :
    sGet k ((k', v) :: m) = sGet k m := by
  simp [sGet, h]

/-- Insertion replaces at the head key. -/
theorem sInsert_cons_self (k : Str) (v w : α) (m : SMap α) :
    sInsert k v ((k, w) :: m) = (k, v) :: m := by
  simp [sInsert]

/-- Expansion of a template that is one placeholder naming an absent enum:
the unknown-reference error. -/
theorem expand_expr_missing (data : Data) (n : Str) (hok : nameOk n)
    (hnone : sGet n data.enums = none) :
    expand_expr (phTxt n) data = .error (.unknownEnumRef n) := by
  have hfm : findMatch (phTxt n) = some (0, n.length + 3) := by
    rw [← List.append_nil (phTxt n)]
    exact findMatch_phTxt n [] hok.1 (plainStr_noBrace n hok.2)
  have h1 : ∀ fuel, scanRangesF (fuel + 1) (phTxt n) 0 = [(0, n.length + 3)] := by
    intro fuel
    simp only [scanRangesF, hfm]
    rw [show (phTxt n).drop (n.length + 3) = [] from by
      rw [← phTxt_length n]; exact List.drop_length _]
    rw [scanRangesF_none fuel [] _ rfl]
  have hscan : scanRanges (phTxt n) = [(0, n.length + 3)] := by
    unfold scanRanges
    exact h1 (phTxt n).length
  have hex := extract_at [] n []
  simp only [List.length_nil, List.nil_append, List.append_nil, Nat.zero_add] at hex
  unfold expand_expr
  rw [hscan]
  simp only [expandLoop, Nat.zero_add]
  rw [hex, hnone]

/-- A mapping entry whose literal converts successfully yields one pair per
key, all carrying the converted value. -/
theorem convEntry_ok (t : Ty) (value : RonValue) (v : Value)
    (hv : Value.from_ron value t = .ok v) :
    ∀ keys : List Str, convEntry t value keys = .ok (keys.map (fun k => (k, v))) := by
  intro keys
  induction keys with
  | nil => rfl
  | cons k rest ih => simp only [convEntry, hv, ih, List.map_cons]

/-- A mapping all of whose literals convert reaches the duplicate check:
the conversion loop returns some pair list. -/
theorem convMapping_ok (t : Ty) (m : List (VecOrOne Str × RonValue))
    (h : convertsAll t m = true) :
    ∃ ps, convMapping t m = .ok ps := by
  induction m with
  | nil => exact ⟨[], rfl⟩
  | cons kv rest ih =>
    obtain ⟨ks, val⟩ := kv
    simp only [convertsAll, List.all_cons, Bool.and_eq_true] at h
    have hval : ∃ v, Value.from_ron val t = .ok v := by
      cases hfr : Value.from_ron val t with
      | ok v => exact ⟨v, rfl⟩
      | error e => rw [hfr] at h; simp at h
    obtain ⟨v, hv⟩ := hval
    obtain ⟨ps', hps'⟩ := ih h.2
    refine ⟨(keyList ks).map (fun k => (k, v)) ++ ps', ?_⟩
    simp only [convMapping, convEntry_ok t val v hv (keyList ks), hps']

/-- Claim C1, amended: the generator decides exhaustiveness by the length
comparison `mapping.len() == variants.len()` — not by checking that every
variant has an entry.  For every property attached to an enum: its
accessor is among the emitted accessors; it has no default arm exactly
when the mapping's size equals the variant list's length; when the sizes
match, the arms return each mapping value bare, one arm per mapping key
(camel-cased), in mapping order; otherwise every arm wraps its value in
`Some` and a default `None` arm is appended. -/
theorem c1_amended (e : Enum) (pr : Property) (hmem : pr ∈ e.properties.map Prod.snd) :
    generateAccessor e pr ∈ generate_enum_functions e
    ∧ ((generateAccessor e pr).defaultNone = false ↔ pr.mapping.length = e.variants.length)
    ∧ (pr.mapping.length = e.variants.length →
        (generateAccessor e pr).arms
          = pr.mapping.map (fun kv => (toCamelCase kv.1, ArmValue.plain kv.2)))
    ∧ (pr.mapping.length ≠ e.variants.length →
        (generateAccessor e pr).defaultNone = true
        ∧ (generateAccessor e pr).arms
            = pr.mapping.map (fun kv => (toCamelCase kv.1, ArmValue.someV kv.2))) := by
  refine ⟨?_, ?_, ?_, ?_⟩
  · rw [List.mem_map] at hmem
    obtain ⟨kv, hkv, rfl⟩ := hmem
    exact List.mem_map.mpr ⟨kv, hkv, rfl⟩
  · by_cases h : pr.mapping.length = e.variants.length
    · simp [generateAccessor, h]
    · simp [generateAccessor, h]
  · intro h
    simp [generateAccessor, h]
  · intro h
    constructor
    · simp [generateAccessor, h]
    · simp [generateAccessor, h]

/-- Witness for C1 (amended): the enum `e = [a]` with property `prop` whose
single mapping key is `b`. -/
theorem c1_witness :
    generateAccessor c1Enum c1Prop ∈ generate_enum_functions c1Enum
    ∧ ((generateAccessor c1Enum c1Prop).defaultNone = false
        ↔ c1Prop.mapping.length = c1Enum.variants.length)
    ∧ (c1Prop.mapping.length = c1Enum.variants.length →
        (generateAccessor c1Enum c1Prop).arms
          = c1Prop.mapping.map (fun kv => (toCamelCase kv.1, ArmValue.plain kv.2)))
    ∧ (c1Prop.mapping.length ≠ c1Enum.variants.length →
        (generateAccessor c1Enum c1Prop).defaultNone = true
        ∧ (generateAccessor c1Enum c1Prop).arms
            = c1Prop.mapping.map (fun kv => (toCamelCase kv.1, ArmValue.someV kv.2))) :=
  c1_amended c1Enum c1Prop (by decide)

/-- Claim C8, amended: the tag of a successfully converted value matches
the declared type for number literals (`U32` under `u32`, `F64` under
`f64`, every other declared type rejects a number) and for string
literals under declared `string`; but a string literal under any other
declared type becomes a `Custom` reference, and a boolean literal
converts to `Bool` under *every* declared type, so the stored tag can
disagree with the owning property's declared type. -/
theorem c8_amended :
    (∀ (q : Rat) (t : Ty) (v : Value),
        Value.from_ron (.number q) t = .ok v → tagMatches v t = true)
    ∧ (∀ s : Str, Value.from_ron (.string s) .string = .ok (.string s))
    ∧ (∀ (s : Str) (t : Ty), t ≠ .string → Value.from_ron (.string s) t = .ok (.custom s))
    ∧ (∀ (b : Bool) (t : Ty), Value.from_ron (.boolean b) t = .ok (.bool b)) := by
  refine ⟨?_, ?_, ?_, ?_⟩
  · intro q t v h
    cases t with
    | u32 => injection h with h2; subst h2; rfl
    | f64 => injection h with h2; subst h2; rfl
    | slice inner => exact Except.noConfusion h
    | string => exact Except.noConfusion h
    | bool => exact Except.noConfusion h
    | custom nm => exact Except.noConfusion h
  · intro s
    rfl
  · intro s t h
    simp [Value.from_ron, if_neg h]
  · intro b t
    cases t <;> rfl

/-- Witness for C8 (amended): concrete conversions of each kind. -/
theorem c8_witness :
    tagMatches (.u32 (satU32 (rustRound 1))) .u32 = true
    ∧ Value.from_ron (.string xStr) .string = .ok (.string xStr)
    ∧ Value.from_ron (.string xStr) .u32 = .ok (.custom xStr)
    ∧ Value.from_ron (.boolean true) .u32 = .ok (.bool true) :=
  ⟨c8_amended.1 1 .u32 (.u32 (satU32 (rustRound 1))) rfl, c8_amended.2.1 xStr,
   c8_amended.2.2.1 xStr .u32 (by decide), c8_amended.2.2.2 true .u32⟩

/-- Claim C6, amended: the literal shapes `Value::from_ron` actually
rejects are numbers under a declared type other than `u32`/`f64` (and
the unmodelled `ron` shapes hitting the same catch-all); a boolean or
sequence literal under `u32` is *not* rejected.  Moreover a rejected
literal does not surface as a file-wrapped error result: `add_to_data`
unwraps the conversion, so the load aborts with a panic. -/
theorem c6_amended :
    (∀ (q : Rat) (t : Ty), t ≠ .u32 → t ≠ .f64 →
        Value.from_ron (.number q) t = .error (.typeMismatch t (.number q)))
    ∧ (∀ (fn en pn k : Str) (q : Rat),
        from_slice [⟨.single (.propertyDecl en pn .bool [(.one k, .number q)]), fn⟩]
          = .panicked (.typeMismatch .bool (.number q))) := by
  constructor
  · intro q t h1 h2
    cases t
    case u32 => exact absurd rfl h1
    case f64 => exact absurd rfl h2
    all_goals rfl
  · intro fn en pn k q
    rfl

/-- Witness for C6 (amended): a number under `bool`, standalone and through
the pipeline. -/
theorem c6_witness :
    Value.from_ron (.number 1) .bool = .error (.typeMismatch .bool (.number 1))
    ∧ from_slice [⟨.single (.propertyDecl eStr propStr .bool [(.one aStr, .number 1)]), fStr⟩]
        = .panicked (.typeMismatch .bool (.number 1)) :=
  ⟨c6_amended.1 1 .bool (by decide) (by decide), c6_amended.2 fStr eStr propStr aStr 1⟩

/-- Bind of a failed `Except` computation. -/
theorem exBind_err {ε α β : Type} (e : ε) (f : α → Except ε β) :
    (Except.error e : Except ε α) >>= f = .error e := rfl

/-- Claim C4: declaring the same property name twice on one enum aborts the
load with the duplicate-property error, wrapped with the name of the file
holding the second declaration — whether both declarations sit in one
file or in two files, in either load order (the two file names are
arbitrary, so both orders are instances); the hypothesis only asks that
the mapping literals convert, so that the loader reaches its duplicate
check. -/
theorem c4_duplicate_property (fn1 fn2 en pn : Str) (t1 t2 : Ty)
    (m1 m2 : List (VecOrOne Str × RonValue))
    (h1 : convertsAll t1 m1 = true) (h2 : convertsAll t2 m2 = true) :
    from_slice [⟨.multiple [.propertyDecl en pn t1 m1, .propertyDecl en pn t2 m2], fn1⟩]
      = .errLoad fn1 (.duplicateProperty pn)
    ∧ from_slice [⟨.single (.propertyDecl en pn t1 m1), fn1⟩,
                  ⟨.single (.propertyDecl en pn t2 m2), fn2⟩]
      = .errLoad fn2 (.duplicateProperty pn) := by
  obtain ⟨ps1, hps1⟩ := convMapping_ok t1 m1 h1
  obtain ⟨ps2, hps2⟩ := convMapping_ok t2 m2 h2
  constructor
  · simp [from_slice, loadFiles, add_to_data, modelList, applyModels, applyModel,
      hps1, hps2, sGet, sInsert, Enum.default]
  · simp [from_slice, loadFiles, add_to_data, modelList, applyModels, applyModel,
      hps1, hps2, sGet, sInsert, Enum.default]

/-- Witness for C4: the property `prop` declared twice on enum `e`, in one
file and across two files. -/
theorem c4_witness :
    from_slice [⟨.multiple [.propertyDecl eStr propStr .u32 [(.one aStr, .boolean true)],
                            .propertyDecl eStr propStr .bool [(.one bStr, .boolean false)]], fStr⟩]
      = .errLoad fStr (.duplicateProperty propStr)
    ∧ from_slice [⟨.single (.propertyDecl eStr propStr .u32 [(.one aStr, .boolean true)]), fStr⟩,
                  ⟨.single (.propertyDecl eStr propStr .bool [(.one bStr, .boolean false)]), gStr⟩]
      = .errLoad gStr (.duplicateProperty propStr) :=
  c4_duplicate_property fStr gStr eStr propStr .u32 .bool
    [(.one aStr, .boolean true)] [(.one bStr, .boolean false)] (by decide) (by decide)

/-- Claim C5, amended: an unresolved enum reference is always detected, but
is surfaced on two different channels.  In Phase B (a `Custom`-typed
property's key), `expand_expr`'s unknown-reference failure propagates
with `?` and the run ends in an error result; in Phase A (an enum's
variant list), the same failure hits `expand_expr(..).unwrap()` and the
run ends in a panic, not an error result. -/
theorem c5_amended :
    (∀ (fn en miss : Str), nameOk miss → miss ≠ en →
        from_slice [⟨.single (.enumDecl en [phTxt miss]), fn⟩]
          = .panicked (.unknownEnumRef miss))
    ∧ (∀ (fn en pn cn miss v : Str), nameOk miss → miss ≠ en →
        (∀ c ∈ v, c ≠ dollarC) →
        from_slice [⟨.multiple [.enumDecl en [v],
            .propertyDecl en pn (.custom cn) [(.one (phTxt miss), .boolean true)]], fn⟩]
          = .errExpand (.unknownEnumRef miss)) := by
  constructor
  · intro fn en miss hok hne
    have hload : loadFiles [⟨.single (.enumDecl en [phTxt miss]), fn⟩] ⟨[]⟩
        = .ok ⟨[(en, mkEnumD en [phTxt miss] fn)]⟩ := by
      simp [loadFiles, add_to_data, modelList, applyModels, applyModel, Enum.default,
        mkEnumD, sGet, sInsert]
    have hexp : expand_expr (phTxt miss) (⟨[(en, mkEnumD en [phTxt miss] fn)]⟩ : Data)
        = .error (.unknownEnumRef miss) :=
      expand_expr_missing _ miss hok (by simp [sGet, hne])
    simp only [mkEnumD, List.map_cons, List.map_nil] at hexp
    simp [from_slice, hload, expand, phaseA, phaseARepl, mkEnumD, expandVariants, hexp,
      exBind_ok, exBind_err]
  · intro fn en pn cn miss v hok hne hv
    have hload : loadFiles [⟨.multiple [.enumDecl en [v],
          .propertyDecl en pn (.custom cn) [(.one (phTxt miss), .boolean true)]], fn⟩] ⟨[]⟩
        = .ok ⟨[(en, ⟨en, toCamelCase en, [v], [v].map toCamelCase,
            [(pn, ⟨pn, .custom cn, [(phTxt miss, .bool true)]⟩)], fn⟩)]⟩ := by
      simp [loadFiles, add_to_data, modelList, applyModels, applyModel, Enum.default,
        convMapping, convEntry, keyList, Value.from_ron, sFromList, sGet, sInsert]
    have hexp : expand_expr (phTxt miss)
          (⟨[(en, ⟨en, toCamelCase en, [v], [toCamelCase v],
              [(pn, ⟨pn, .custom cn, [(phTxt miss, .bool true)]⟩)], fn⟩)]⟩ : Data)
        = .error (.unknownEnumRef miss) :=
      expand_expr_missing _ miss hok (by simp [sGet, hne])
    have hplain : ∀ d : Data, expand_expr v d = .ok [v] :=
      fun d => expand_expr_noDollar v d hv
    simp [from_slice, hload, expand, phaseA, phaseARepl, expandVariants, hplain,
      writeVariants, sGet, sInsert, phaseB, phaseBRepl, phaseBProps, expandKV, hexp,
      exBind_ok, exBind_err]

/-- Witness for C5 (amended): the undeclared enum `missing` referenced from
an enum's variant list (panic) and from a custom property's key (error
result). -/
theorem c5_witness :
    from_slice [⟨.single (.enumDecl eStr [phTxt missingStr]), fStr⟩]
      = .panicked (.unknownEnumRef missingStr)
    ∧ from_slice [⟨.multiple [.enumDecl eStr [xStr],
        .propertyDecl eStr propStr (.custom aStr) [(.one (phTxt missingStr), .boolean true)]], fStr⟩]
      = .errExpand (.unknownEnumRef missingStr) :=
  ⟨c5_amended.1 fStr eStr missingStr (by decide) (by decide),
   c5_amended.2 fStr eStr propStr aStr missingStr xStr (by decide) (by decide) (by decide)⟩

/-- String comparison is irreflexive. -/
theorem strLt_irrefl (s : Str) : strLt s s = false := by
  induction s with
  | nil => rfl
  | cons c s ih => simp [strLt, ih]

/-- Strictly smaller strings are different. -/
theorem strLt_ne (a b : Str) (h : strLt a b = true) : a ≠ b := by
  intro he
  subst he
  rw [strLt_irrefl] at h
  exact Bool.false_ne_true h

/-- A well-formed map has distinct keys. -/
theorem sWF_nodup (m : SMap α) (h : sWF m) : (m.map Prod.fst).Nodup := by
  refine List.Pairwise.map Prod.fst (fun {a b} hl => ?_) h
  exact strLt_ne a.1 b.1 hl

/-- Lookup after inserting the same key. -/
theorem sGet_sInsert_self (k : Str) (v : α) (m : SMap α) :
    sGet k (sInsert k v m) = some v := by
  induction m with
  | nil => simp [sInsert, sGet]
  | cons kv m ih =>
    obtain ⟨k', v'⟩ := kv
    by_cases he : k = k'
    · simp [sInsert, he, sGet]
    · by_cases hlt : strLt k k' = true
      · simp [sInsert, he, hlt, sGet]
      · simp [sInsert, he, hlt, sGet, ih]

/-- Lookup after inserting a different key. -/
theorem sGet_sInsert_ne (k j : Str) (v : α) (m : SMap α) (h : k ≠ j) :
    sGet k (sInsert j v m) = sGet k m := by
  induction m with
  | nil => simp [sInsert, sGet, h]
  | cons kv m ih =>
    obtain ⟨k', v'⟩ := kv
    by_cases he : j = k'
    · subst he
      simp [sInsert, sGet, h]
    · by_cases hlt : strLt j k' = true
      · simp [sInsert, he, hlt, sGet, h]
      · by_cases hk : k = k'
        · simp [sInsert, he, hlt, sGet, hk]
        · simp [sInsert, he, hlt, sGet, hk, ih]

/-- A found binding is a member of the list. -/
theorem sGet_mem (k : Str) (v : α) : ∀ m : SMap α, sGet k m = some v → (k, v) ∈ m := by
  intro m
  induction m with
  | nil => intro h; simp [sGet] at h
  | cons kv m ih =>
    obtain ⟨k', v'⟩ := kv
    intro h
    by_cases he : k = k'
    · subst he
      rw [sGet_cons_self] at h
      injection h with h2
      subst h2
      simp
    · rw [sGet_cons_ne k k' v' m he] at h
      exact List.mem_cons_of_mem _ (ih h)

/-- In a well-formed map every member is found by lookup. -/
theorem sWF_get_of_mem (k : Str) (v : α) : ∀ m : SMap α, sWF m → (k, v) ∈ m →
    sGet k m = some v := by
  intro m
  induction m with
  | nil => intro _ h; simp at h
  | cons kv m ih =>
    obtain ⟨k', v'⟩ := kv
    intro hwf hm
    rcases List.mem_cons.mp hm with h | h
    · injection h with h1 h2
      subst h1
      subst h2
      exact sGet_cons_self k v m
    · have hne : k ≠ k' := by
        intro he
        subst he
        have h2 := (List.pairwise_cons.mp hwf).1 (k, v) h
        simp only at h2
        exact strLt_ne _ _ h2 rfl
      rw [sGet_cons_ne k k' v' m hne]
      exact ih (List.pairwise_cons.mp hwf).2 h

/-- Inversion of a successful `Except` bind. -/
theorem exBind_ok_inv {ε α β : Type} (x : Except ε α) (f : α → Except ε β) (b : β)
    (h : x >>= f = .ok b) : ∃ a, x = .ok a ∧ f a = .ok b := by
  cases x with
  | ok a => exact ⟨a, rfl, h⟩
  | error e => exact Except.noConfusion h

/-- What a successful Phase-B property scan contains: records tagged with
the enum's `name`, keyed by each `Custom`-typed property's `name` (a
sublist of the property names, hence key-distinct when those are), and
for every `Custom`-typed property exactly its successfully expanded key
and value sequences. -/
theorem phaseBProps_spec (d : Data) (nm : Str) :
    ∀ (props : List (Str × Property)) (b : List (Str × Str × List Str × List Value)),
      phaseBProps d nm props = .ok b →
      (∀ r ∈ b, r.1 = nm ∧ ∃ pv ∈ props, r.2.1 = pv.2.name)
      ∧ (b.map (fun r => r.2.1)).Sublist (props.map (fun pv => pv.2.name))
      ∧ (∀ pv ∈ props, ∀ cn, pv.2.typ = .custom cn →
          ∃ ks vs, expandKV d pv.2.mapping = .ok (ks, vs) ∧ (nm, pv.2.name, ks, vs) ∈ b) := by
  intro props
  induction props with
  | nil =>
    intro b h
    injection h with h1
    subst h1
    exact ⟨fun r hr => absurd hr (List.not_mem_nil r), List.nil_sublist _,
      fun pv hpv => absurd hpv (List.not_mem_nil pv)⟩
  | cons pv rest ih =>
    intro b h
    obtain ⟨pn, pr⟩ := pv
    cases htyp : pr.typ with
    | custom cn =>
      simp only [phaseBProps, htyp] at h
      obtain ⟨⟨ks, vs⟩, h1, h2⟩ := exBind_ok_inv _ _ _ h
      obtain ⟨r2, h3, h4⟩ := exBind_ok_inv _ _ _ h2
      injection h4 with h5
      subst h5
      obtain ⟨iha, ihb, ihc⟩ := ih r2 h3
      refine ⟨?_, ?_, ?_⟩
      · intro r hr
        rcases List.mem_cons.mp hr with hr | hr
        · subst hr
          exact ⟨rfl, ⟨(pn, pr), List.mem_cons_self _ _, rfl⟩⟩
        · obtain ⟨hnm, pv', hpv', hname⟩ := iha r hr
          exact ⟨hnm, pv', List.mem_cons_of_mem _ hpv', hname⟩
      · simpa using List.Sublist.cons₂ pr.name ihb
      · intro pv' hpv' cn' hcu
        rcases List.mem_cons.mp hpv' with hh | hh
        · subst hh
          exact ⟨ks, vs, h1, List.mem_cons_self _ _⟩
        · obtain ⟨ks', vs', hk, hm⟩ := ihc pv' hh cn' hcu
          exact ⟨ks', vs', hk, List.mem_cons_of_mem _ hm⟩
    | slice inner =>
      simp only [phaseBProps, htyp] at h
      obtain ⟨iha, ihb, ihc⟩ := ih b h
      refine ⟨fun r hr => ?_, by simpa using List.Sublist.cons pr.name ihb, fun pv' hpv' cn' hcu => ?_⟩
      · obtain ⟨hnm, pv', hpv', hname⟩ := iha r hr
        exact ⟨hnm, pv', List.mem_cons_of_mem _ hpv', hname⟩
      · rcases List.mem_cons.mp hpv' with hh | hh
        · subst hh
          rw [htyp] at hcu
          exact Ty.noConfusion hcu
        · exact ihc pv' hh cn' hcu
    | u32 =>
      simp only [phaseBProps, htyp] at h
      obtain ⟨iha, ihb, ihc⟩ := ih b h
      refine ⟨fun r hr => ?_, by simpa using List.Sublist.cons pr.name ihb, fun pv' hpv' cn' hcu => ?_⟩
      · obtain ⟨hnm, pv', hpv', hname⟩ := iha r hr
        exact ⟨hnm, pv', List.mem_cons_of_mem _ hpv', hname⟩
      · rcases List.mem_cons.mp hpv' with hh | hh
        · subst hh
          rw [htyp] at hcu
          exact Ty.noConfusion hcu
        · exact ihc pv' hh cn' hcu
    | f64 =>
      simp only [phaseBProps, htyp] at h
      obtain ⟨iha, ihb, ihc⟩ := ih b h
      refine ⟨fun r hr => ?_, by simpa using List.Sublist.cons pr.name ihb, fun pv' hpv' cn' hcu => ?_⟩
      · obtain ⟨hnm, pv', hpv', hname⟩ := iha r hr
        exact ⟨hnm, pv', List.mem_cons_of_mem _ hpv', hname⟩
      · rcases List.mem_cons.mp hpv' with hh | hh
        · subst hh
          rw [htyp] at hcu
          exact Ty.noConfusion hcu
        · exact ihc pv' hh cn' hcu
    | string =>
      simp only [phaseBProps, htyp] at h
      obtain ⟨iha, ihb, ihc⟩ := ih b h
      refine ⟨fun r hr => ?_, by simpa using List.Sublist.cons pr.name ihb, fun pv' hpv' cn' hcu => ?_⟩
      · obtain ⟨hnm, pv', hpv', hname⟩ := iha r hr
        exact ⟨hnm, pv', List.mem_cons_of_mem _ hpv', hname⟩
      · rcases List.mem_cons.mp hpv' with hh | hh
        · subst hh
          rw [htyp] at hcu
          exact Ty.noConfusion hcu
        · exact ihc pv' hh cn' hcu
    | bool =>
      simp only [phaseBProps, htyp] at h
      obtain ⟨iha, ihb, ihc⟩ := ih b h
      refine ⟨fun r hr => ?_, by simpa using List.Sublist.cons pr.name ihb, fun pv' hpv' cn' hcu => ?_⟩
      · obtain ⟨hnm, pv', hpv', hname⟩ := iha r hr
        exact ⟨hnm, pv', List.mem_cons_of_mem _ hpv', hname⟩
      · rcases List.mem_cons.mp hpv' with hh | hh
        · subst hh
          rw [htyp] at hcu
          exact Ty.noConfusion hcu
        · exact ihc pv' hh cn' hcu

/-- Inversion of one Phase-B scan step over the enum list. -/
theorem phaseBRepl_cons_inv (d : Data) (k : Str) (e : Enum) (rest : List (Str × Enum))
    (reps : List (Str × Str × List Str × List Value))
    (h : phaseBRepl d ((k, e) :: rest) = .ok reps) :
    ∃ b r2, phaseBProps d e.name e.properties = .ok b
      ∧ phaseBRepl d rest = .ok r2 ∧ reps = b ++ r2 := by
  simp only [phaseBRepl] at h
  obtain ⟨b, h1, h2⟩ := exBind_ok_inv _ _ _ h
  obtain ⟨r2, h3, h4⟩ := exBind_ok_inv _ _ _ h2
  injection h4 with h5
  exact ⟨b, r2, h1, h3, h5.symm⟩

/-- Inversion of one Phase-B write-back step. -/
theorem writeProp_ok_inv (m : SMap Enum) (rep : Str × Str × List Str × List Value)
    (m₁ : SMap Enum) (h : writeProp m rep = .ok m₁) :
    ∃ e pr, sGet rep.1 m = some e ∧ sGet rep.2.1 e.properties = some pr
      ∧ m₁ = sInsert rep.1
          { e with properties := (sInsert rep.2.1
              ({ pr with mapping := sFromList (rep.2.2.1.zip rep.2.2.2) }) e.properties) } m := by
  unfold writeProp at h
  cases h1 : sGet rep.1 m with
  | none => simp only [h1] at h; exact LoadOut.noConfusion h
  | some e =>
    simp only [h1] at h
    cases h2 : sGet rep.2.1 e.properties with
    | none => simp only [h2] at h; exact LoadOut.noConfusion h
    | some pr =>
      simp only [h2] at h
      injection h with h3
      exact ⟨e, pr, rfl, h2, h3.symm⟩

/-- Splitting a successful write-back loop at a list split. -/
theorem writeProps_append (A B : List (Str × Str × List Str × List Value)) :
    ∀ (m m' : SMap Enum), writeProps m (A ++ B) = .ok m' →
      ∃ mid, writeProps m A = .ok mid ∧ writeProps mid B = .ok m' := by
  induction A with
  | nil => intro m m' h; exact ⟨m, rfl, h⟩
  | cons r A ih =>
    intro m m' h
    simp only [List.cons_append, writeProps] at h ⊢
    cases hw : writeProp m r with
    | ok m₁ =>
      rw [hw] at h
      exact ih m₁ m' h
    | err e => rw [hw] at h; exact LoadOut.noConfusion h
    | panicked e => rw [hw] at h; exact LoadOut.noConfusion h

/-- A write-back loop that never touches key `en` preserves its entry. -/
theorem writeProps_other (en : Str) :
    ∀ (reps : List (Str × Str × List Str × List Value)) (m m' : SMap Enum),
      (∀ r ∈ reps, r.1 ≠ en) → writeProps m reps = .ok m' →
      sGet en m' = sGet en m := by
  intro reps
  induction reps with
  | nil =>
    intro m m' _ h
    injection h with h1
    rw [h1]
  | cons r reps ih =>
    intro m m' hne h
    simp only [writeProps] at h
    cases hw : writeProp m r with
    | ok m₁ =>
      rw [hw] at h
      obtain ⟨e, pr, _, _, hm₁⟩ := writeProp_ok_inv m r m₁ hw
      rw [ih m₁ m' (fun r' hr' => hne r' (by simp [hr'])) h, hm₁,
        sGet_sInsert_ne en r.1 _ m (fun he => hne r (by simp) he.symm)]
    | err e => rw [hw] at h; exact LoadOut.noConfusion h
    | panicked e => rw [hw] at h; exact LoadOut.noConfusion h

/-- Write-back of one enum's block of records: the enum's entry accumulates
one property-mapping replacement per record; other map keys and the
untouched properties are preserved. -/
theorem writeProps_block (en : Str) :
    ∀ (b : List (Str × Str × List Str × List Value)) (m : SMap Enum) (e : Enum),
      sGet en m = some e →
      (∀ r ∈ b, r.1 = en) →
      (b.map (fun r => r.2.1)).Nodup →
      (∀ r ∈ b, (sGet r.2.1 e.properties).isSome = true) →
      ∀ m', writeProps m b = .ok m' →
        ∃ e', sGet en m' = some e'
          ∧ (∀ k, k ≠ en → sGet k m' = sGet k m)
          ∧ (∀ pn, (∀ r ∈ b, r.2.1 ≠ pn) → sGet pn e'.properties = sGet pn e.properties)
          ∧ (∀ r ∈ b, ∀ pr, sGet r.2.1 e.properties = some pr →
              sGet r.2.1 e'.properties
                = some { pr with mapping := sFromList (r.2.2.1.zip r.2.2.2) }) := by
  intro b
  induction b with
  | nil =>
    intro m e he _ _ _ m' h
    injection h with h1
    subst h1
    exact ⟨e, he, fun _ _ => rfl, fun _ _ => rfl, fun r hr => absurd hr (List.not_mem_nil r)⟩
  | cons r b ih =>
    intro m e he hen hnd hsome m' h
    simp only [writeProps] at h
    cases hw : writeProp m r with
    | ok m₁ =>
      rw [hw] at h
      obtain ⟨e₀, pr₀, hge, hgp, hm₁⟩ := writeProp_ok_inv m r m₁ hw
      have hren : r.1 = en := hen r (List.mem_cons_self _ _)
      rw [hren] at hge hm₁
      rw [he] at hge
      injection hge with hge
      subst hge
      have hkeys : r.2.1 ∉ b.map (fun r' => r'.2.1) := (List.nodup_cons.mp (by simpa using hnd)).1
      have hne_tail : ∀ r' ∈ b, r'.2.1 ≠ r.2.1 := by
        intro r' hr' heq
        exact hkeys (heq ▸ List.mem_map_of_mem (fun r' => r'.2.1) hr')
      have hge₁ : sGet en m₁
          = some { e with properties := (sInsert r.2.1
              ({ pr₀ with mapping := sFromList (r.2.2.1.zip r.2.2.2) }) e.properties) } := by
        rw [hm₁]
        exact sGet_sInsert_self _ _ _
      obtain ⟨e', hge', hothers, hunch, hupd⟩ := ih m₁ _ hge₁
        (fun r' hr' => hen r' (List.mem_cons_of_mem _ hr'))
        (List.nodup_cons.mp (by simpa using hnd)).2
        (by
          intro r' hr'
          show (sGet r'.2.1 (sInsert r.2.1 _ e.properties)).isSome = true
          rw [sGet_sInsert_ne _ _ _ _ (hne_tail r' hr')]
          exact hsome r' (List.mem_cons_of_mem _ hr'))
        m' h
      refine ⟨e', hge', ?_, ?_, ?_⟩
      · intro k hk
        rw [hothers k hk, hm₁, sGet_sInsert_ne _ _ _ _ hk]
      · intro pn hpn
        rw [hunch pn (fun r' hr' => hpn r' (List.mem_cons_of_mem _ hr'))]
        show sGet pn (sInsert r.2.1 _ e.properties) = _
        rw [sGet_sInsert_ne _ _ _ _ (fun h' => (hpn r (List.mem_cons_self _ _)) h'.symm)]
      · intro r' hr' pr h'
        rcases List.mem_cons.mp hr' with hh | hh
        · subst hh
          rw [hgp] at h'
          injection h' with h''
          subst h''
          rw [hunch r'.2.1 (fun r'' hr'' => hne_tail r'' hr'')]
          show sGet r'.2.1 (sInsert r'.2.1 _ e.properties) = _
          rw [sGet_sInsert_self]
        · refine hupd r' hh pr ?_
          show sGet r'.2.1 (sInsert r.2.1 _ e.properties) = some pr
          rw [sGet_sInsert_ne _ _ _ _ (hne_tail r' hh)]
          exact h'
    | err e₂ => rw [hw] at h; exact LoadOut.noConfusion h
    | panicked e₂ => rw [hw] at h; exact LoadOut.noConfusion h

/-- Every Phase-B record is tagged with the `name` of some scanned enum. -/
theorem phaseBRepl_names (d : Data) :
    ∀ (l : List (Str × Enum)) (reps : List (Str × Str × List Str × List Value)),
      phaseBRepl d l = .ok reps → ∀ r ∈ reps, ∃ kv ∈ l, r.1 = kv.2.name := by
  intro l
  induction l with
  | nil =>
    intro reps h r hr
    injection h with h1
    subst h1
    exact absurd hr (List.not_mem_nil r)
  | cons kv l ih =>
    intro reps h r hr
    obtain ⟨k₀, e₀⟩ := kv
    obtain ⟨b, r2, hb, hr2, hreps⟩ := phaseBRepl_cons_inv d k₀ e₀ l reps h
    subst hreps
    rcases List.mem_append.mp hr with hh | hh
    · exact ⟨(k₀, e₀), List.mem_cons_self _ _, ((phaseBProps_spec d e₀.name e₀.properties b hb).1 r hh).1⟩
    · obtain ⟨kv', hkv', hname⟩ := ih r2 hr2 r hh
      exact ⟨kv', List.mem_cons_of_mem _ hkv', hname⟩

/-- Pointwise description of a successful Phase B over the scanned enum
list: every enum's entry survives, and every `Custom`-typed property's
mapping is rebuilt as the truncating positional zip of its expanded key
and value sequences. -/
theorem phaseB_pointwise (d : Data) :
    ∀ (l : List (Str × Enum)) (m : SMap Enum)
      (reps : List (Str × Str × List Str × List Value)) (m' : SMap Enum),
      phaseBRepl d l = .ok reps →
      writeProps m reps = .ok m' →
      (∀ kv ∈ l, kv.2.name = kv.1 ∧ sWF kv.2.properties
        ∧ (∀ pv ∈ kv.2.properties, pv.2.name = pv.1)
        ∧ sGet kv.1 m = some kv.2) →
      (l.map Prod.fst).Nodup →
      ∀ en e, (en, e) ∈ l →
        ∃ e', sGet en m' = some e'
          ∧ ∀ pn pr cn, sGet pn e.properties = some pr → pr.typ = .custom cn →
              ∃ ks vs, expandKV d pr.mapping = .ok (ks, vs)
                ∧ sGet pn e'.properties = some { pr with mapping := sFromList (ks.zip vs) } := by
  intro l
  induction l with
  | nil =>
    intro m reps m' _ _ _ _ en e hmem
    exact absurd hmem (List.not_mem_nil _)
  | cons kv l ih =>
    intro m reps m' hrepl hwrite hkv hnd en e hmem
    obtain ⟨k₀, e₀⟩ := kv
    simp only [List.map_cons] at hnd
    obtain ⟨b, r2, hb, hr2, hreps⟩ := phaseBRepl_cons_inv d k₀ e₀ l reps hrepl
    subst hreps
    obtain ⟨mid, hw1, hw2⟩ := writeProps_append b r2 m m' hwrite
    obtain ⟨hhd_name, hhd_wf, hhd_pnames, hhd_get⟩ := hkv (k₀, e₀) (List.mem_cons_self _ _)
    obtain ⟨hbA, hbSub, hbC⟩ := phaseBProps_spec d e₀.name e₀.properties b hb
    have hb_en : ∀ r ∈ b, r.1 = k₀ := fun r hr => ((hbA r hr).1).trans hhd_name
    have hpn_eq : e₀.properties.map (fun pv => pv.2.name) = e₀.properties.map Prod.fst :=
      List.map_congr_left (fun pv hpv => hhd_pnames pv hpv)
    have hb_nd : (b.map (fun r => r.2.1)).Nodup := by
      refine List.Sublist.nodup ?_ (sWF_nodup _ hhd_wf)
      rw [← hpn_eq]
      exact hbSub
    have hb_some : ∀ r ∈ b, (sGet r.2.1 e₀.properties).isSome = true := by
      intro r hr
      obtain ⟨_, pv, hpv, hname⟩ := (hbA r hr)
      have hg : sGet r.2.1 e₀.properties = some pv.2 := by
        rw [hname, hhd_pnames pv hpv]
        exact sWF_get_of_mem pv.1 pv.2 e₀.properties hhd_wf (by simpa using hpv)
      rw [hg]
      rfl
    obtain ⟨e₀', hge₀', hothers, hunch, hupd⟩ :=
      writeProps_block k₀ b m e₀ hhd_get hb_en hb_nd hb_some mid hw1
    have hk₀_notin : k₀ ∉ l.map Prod.fst := (List.nodup_cons.mp hnd).1
    have hr2_ne : ∀ r ∈ r2, r.1 ≠ k₀ := by
      intro r hr heq
      obtain ⟨kv', hkv', hname⟩ := phaseBRepl_names d l r2 hr2 r hr
      rw [(hkv kv' (List.mem_cons_of_mem _ hkv')).1] at hname
      rw [hname] at heq
      exact hk₀_notin (heq ▸ List.mem_map_of_mem Prod.fst hkv')
    rcases List.mem_cons.mp hmem with hh | hh
    · injection hh with hh1 hh2
      subst hh1
      subst hh2
      have hfinal : sGet en m' = some e₀' := by
        rw [writeProps_other en r2 mid m' hr2_ne hw2]
        exact hge₀'
      refine ⟨e₀', hfinal, ?_⟩
      intro pn pr cn hpr htyp
      obtain ⟨ks, vs, hkv', hmem'⟩ := hbC (pn, pr) (sGet_mem pn pr e.properties hpr) cn htyp
      have hprname : pr.name = pn := hhd_pnames (pn, pr) (sGet_mem pn pr e.properties hpr)
      refine ⟨ks, vs, hkv', ?_⟩
      have hres := hupd (e.name, pr.name, ks, vs) hmem' pr (by
        show sGet pr.name e.properties = some pr
        rw [hprname]
        exact hpr)
      rw [hprname] at hres
      rw [hprname]
      exact hres
    · refine ih mid r2 m' hr2 hw2 ?_ (List.nodup_cons.mp hnd).2 en e hh
      intro kv' hkv'
      obtain ⟨h1, h2, h3, h4⟩ := hkv kv' (List.mem_cons_of_mem _ hkv')
      refine ⟨h1, h2, h3, ?_⟩
      have hne : kv'.1 ≠ k₀ := by
        intro heq
        exact hk₀_notin (heq ▸ List.mem_map_of_mem Prod.fst hkv')
      rw [hothers kv'.1 hne]
      exact h4

/-- Insertion walks past a strictly smaller head key. -/
theorem sInsert_cons_skip (k k' : Str) (v v' : α) (m : SMap α)
    (h1 : k ≠ k') (h2 : strLt k k' = false) :
    sInsert k v ((k', v') :: m) = (k', v') :: sInsert k v m := by
  simp [sInsert, h1, h2]

/-- Claim C10: Phase B rebuilds every `Custom`-typed property's mapping as
the positional zip of the concatenated key expansions with the
concatenated value expansions (a non-`Custom` value contributing one
element), truncated at the shorter sequence with no error.  First
conjunct: on any well-formed registry (sorted maps, `name` fields equal
to the map keys) whose Phase B succeeds, each `Custom`-typed property's
new mapping is exactly `collect(zip(new_keys, new_values))` for its
successfully expanded sequences.  Second conjunct: in the registry where
`a = v0 :: v1 :: rest` and the property maps the template key `${a}` to
one non-`Custom` value and the later key `z` to another, the key `v1`
(from the first entry's expansion) is silently paired with the second
entry's value, and the trailing key `z` is silently dropped. -/
theorem c10_zip_rebuild :
    (∀ (d d' : Data),
      sWF d.enums →
      (∀ kv ∈ d.enums, kv.2.name = kv.1 ∧ sWF kv.2.properties
        ∧ (∀ pv ∈ kv.2.properties, pv.2.name = pv.1)) →
      phaseB d = .ok d' →
      ∀ en e pn pr cn, sGet en d.enums = some e → sGet pn e.properties = some pr →
        pr.typ = .custom cn →
        ∃ ks vs e', expandKV d pr.mapping = .ok (ks, vs)
          ∧ sGet en d'.enums = some e'
          ∧ sGet pn e'.properties = some { pr with mapping := sFromList (ks.zip vs) })
    ∧ (∀ (v0 v1 : Str) (n1 n2 : Nat),
        plainStr v0 → plainStr v1 →
        v0 ≠ v1 → v0 ≠ zStr → v1 ≠ zStr →
        ∃ mp, propMappingAfter (phaseB (c10Data v0 v1 [] n1 n2)) bStr propStr = some mp
          ∧ sGet v0 mp = some (.u32 n1) ∧ sGet v1 mp = some (.u32 n2)
          ∧ sGet zStr mp = none) := by
  constructor
  · intro d d' hwf hwf2 hpb en e pn pr cn hge hgp htyp
    unfold phaseB at hpb
    cases hr : phaseBRepl d d.enums with
    | error e₂ =>
      simp only [hr] at hpb
      exact LoadOut.noConfusion hpb
    | ok reps =>
      simp only [hr] at hpb
      cases hw : writeProps d.enums reps with
      | ok m' =>
        simp only [hw] at hpb
        injection hpb with hpb1
        subst hpb1
        obtain ⟨e', hge', hprop⟩ := phaseB_pointwise d d.enums d.enums reps m' hr hw
          (fun kv hkv => ⟨(hwf2 kv hkv).1, (hwf2 kv hkv).2.1, (hwf2 kv hkv).2.2,
            sWF_get_of_mem kv.1 kv.2 d.enums hwf (by simpa using hkv)⟩)
          (sWF_nodup _ hwf) en e (sGet_mem en e d.enums hge)
        obtain ⟨ks, vs, hkv', hget⟩ := hprop pn pr cn hgp htyp
        exact ⟨ks, vs, e', hkv', hge', hget⟩
      | err e₂ =>
        simp only [hw] at hpb
        exact LoadOut.noConfusion hpb
      | panicked e₂ =>
        simp only [hw] at hpb
        exact LoadOut.noConfusion hpb
  · intro v0 v1 n1 n2 hp0 hp1 hne h0z h1z
    have hexpA : expand_expr (phTxt aStr) (c10Data v0 v1 [] n1 n2) = .ok [v0, v1] :=
      expand_expr_single _ aStr (mkEnumD aStr [v0, v1] fStr) (by decide) rfl
    have hexpZ : expand_expr zStr (c10Data v0 v1 [] n1 n2) = .ok [zStr] :=
      expand_expr_noDollar zStr _ (by decide)
    simp only [c10Data, mkEnumD, List.map_cons, List.map_nil] at hexpA hexpZ
    have hrepl : phaseBRepl (c10Data v0 v1 [] n1 n2) (c10Data v0 v1 [] n1 n2).enums
        = .ok [(bStr, propStr, [v0, v1, zStr], [Value.u32 n1, Value.u32 n2])] := by
      simp only [c10Data, mkEnumD, List.map_cons, List.map_nil, phaseBRepl, phaseBProps,
        expandKV, hexpA, hexpZ, exBind_ok, List.append_nil, List.nil_append, List.cons_append]
    have hpb : phaseB (c10Data v0 v1 [] n1 n2)
        = .ok ⟨[(aStr, mkEnumD aStr [v0, v1] fStr),
            (bStr, ⟨bStr, toCamelCase bStr, [pStr], [toCamelCase pStr],
              [(propStr, ⟨propStr, .custom aStr,
                sInsert v1 (Value.u32 n2) [(v0, Value.u32 n1)]⟩)], fStr⟩)]⟩ := by
      unfold phaseB
      rw [hrepl]
      rfl
    refine ⟨sInsert v1 (Value.u32 n2) [(v0, Value.u32 n1)], by rw [hpb]; rfl, ?_, ?_, ?_⟩
    · rw [sGet_sInsert_ne v0 v1 _ _ hne]
      exact sGet_cons_self _ _ _
    · exact sGet_sInsert_self _ _ _
    · rw [sGet_sInsert_ne zStr v1 _ _ (fun h => h1z h.symm)]
      rw [sGet_cons_ne zStr v0 _ _ (fun h => h0z h.symm)]
      rfl

/-- Witness for C10: the concrete registry `a = [x, y]` with the property
mapping `{${a} ↦ 1, z ↦ 2}` — the rebuilt mapping pairs `x` with the
first value and `y` with the *second* entry's value, and drops `z`. -/
theorem c10_witness :
    (∃ ks vs e',
        expandKV (c10Data xStr yStr [] 1 2)
            (⟨propStr, Ty.custom aStr,
              [(phTxt aStr, Value.u32 1), (zStr, Value.u32 2)]⟩ : Property).mapping
          = .ok (ks, vs)
        ∧ sGet bStr (⟨[(aStr, mkEnumD aStr [xStr, yStr] fStr),
            (bStr, ⟨bStr, toCamelCase bStr, [pStr], [toCamelCase pStr],
              [(propStr, ⟨propStr, .custom aStr,
                [(xStr, Value.u32 1), (yStr, Value.u32 2)]⟩)], fStr⟩)]⟩ : Data).enums = some e'
        ∧ sGet propStr e'.properties = some
            { (⟨propStr, Ty.custom aStr,
                [(phTxt aStr, Value.u32 1), (zStr, Value.u32 2)]⟩ : Property) with
              mapping := sFromList (ks.zip vs) })
    ∧ (∃ mp, propMappingAfter (phaseB (c10Data xStr yStr [] 1 2)) bStr propStr = some mp
        ∧ sGet xStr mp = some (.u32 1) ∧ sGet yStr mp = some (.u32 2)
        ∧ sGet zStr mp = none) :=
  ⟨c10_zip_rebuild.1 (c10Data xStr yStr [] 1 2)
      (⟨[(aStr, mkEnumD aStr [xStr, yStr] fStr),
        (bStr, ⟨bStr, toCamelCase bStr, [pStr], [toCamelCase pStr],
          [(propStr, ⟨propStr, .custom aStr,
            [(xStr, Value.u32 1), (yStr, Value.u32 2)]⟩)], fStr⟩)]⟩ : Data)
      (by decide) (by decide) (by decide) bStr
      (⟨bStr, toCamelCase bStr, [pStr], [toCamelCase pStr],
        [(propStr, ⟨propStr, .custom aStr,
          [(phTxt aStr, Value.u32 1), (zStr, Value.u32 2)]⟩)], fStr⟩ : Enum)
      propStr
      (⟨propStr, Ty.custom aStr, [(phTxt aStr, Value.u32 1), (zStr, Value.u32 2)]⟩ : Property)
      aStr (by decide) (by decide) (by decide),
   c10_zip_rebuild.2 xStr yStr 1 2 (by decide) (by decide) (by decide) (by decide) (by decide)⟩

/-- Claim C1, counterexample: on the enum `e = [a]` with the attached
property `prop` whose mapping's single key is `b`, the generator emits an
accessor with *no* default arm (the code's length comparison holds:
1 mapping entry, 1 variant), although not every variant of `e` has an
entry in the mapping — refuting "no default arm if and only if every
variant has an entry". -/
theorem c1_counterexample :
    c1Prop ∈ c1Enum.properties.map Prod.snd
    ∧ (generateAccessor c1Enum c1Prop).defaultNone = false
    ∧ ¬ (∀ v ∈ c1Enum.variants, (sGet v c1Prop.mapping).isSome = true) := by
  decide

/-- Claim C2, counterexample: in the registry `a = [x, y]`, `b = [p, q]`,
the template `z${a}${b}` — one placeholder per present enum — does not
expand to the cartesian product: the range-collection loop advances its
offset by the match length instead of the sliced-off length, so the
second placeholder's name is sliced out one character too early and
`expand_expr` fails with an unknown-enum error for the string `{`. -/
theorem c2_counterexample :
    (sGet aStr dataAB.enums).map Enum.variants = some [xStr, yStr]
    ∧ (sGet bStr dataAB.enums).map Enum.variants = some [pStr, qStr]
    ∧ expand_expr (zStr ++ phTxt aStr ++ phTxt bStr) dataAB
        = .error (.unknownEnumRef [lbraceC]) := by
  decide

/-- Claim C3, code bug: loading `a = [x, y]` and the templated enum
`e = ["${a}_sword"]` expands `e`'s variant list to `[x_sword, y_sword]`,
but `generate_enum_body` emits the identifiers from
`variants_camel_case`, which the expansion pass never refreshes — the
emitted declaration has the single identifier `ASword` (the casing
transform of the raw template string) instead of the two identifiers
`XSword`, `YSword` that the claim (one identifier per post-expansion
variant) requires. -/
theorem c3_code_bug :
    (enumOf (from_slice c3Files) eStr).map (fun e => (generate_enum_body e).variants)
        = some [aswordStr]
    ∧ (enumOf (from_slice c3Files) eStr).map (fun e => e.variants.map toCamelCase)
        = some [xswordStr, yswordStr]
    ∧ (enumOf (from_slice c3Files) eStr).map (fun e => (generate_enum_body e).variants)
        ≠ (enumOf (from_slice c3Files) eStr).map (fun e => e.variants.map toCamelCase) := by
  decide

/-- Claim C5, counterexample: an enum variant list holding a placeholder
that names the undeclared enum `missing` makes the aggregation run end in
the Phase-A `expand_expr(..).unwrap()` panic — the unknown-reference
condition is detected, but it is not returned as an error result. -/
theorem c5_counterexample :
    from_slice c5Files = .panicked (.unknownEnumRef missingStr)
    ∧ (match loadFiles c5Files ⟨[]⟩ with
       | .ok d => (sGet missingStr d.enums).isNone
       | _ => false) = true := by
  decide

/-- Claim C6, counterexample: a boolean literal under declared type `u32`
is not rejected at all — `Value::from_ron` converts any boolean literal
to `Bool` regardless of the declared type, and loading the file succeeds
with the mismatched value stored in the property mapping. -/
theorem c6_counterexample :
    Value.from_ron (.boolean true) .u32 = .ok (.bool true)
    ∧ propValueOf (from_slice c6Files) eStr propStr aStr = some (.bool true) := by
  decide

/-- Claim C7, code bug: converting the sequence literal `[1, 2, 3]` under
declared type `slice<u32>` fails — the recursive call of
`Value::from_ron` passes the *whole* declared type `typ.clone()` to each
element instead of the element type, so the first number is rejected as
"not a valid instance" of `slice<u32>`; through the pipeline the
`unwrap` in `add_to_data` turns this into a panic.  The claim's expected
result `Slice([U32 1, U32 2, U32 3])` is never produced. -/
theorem c7_code_bug :
    Value.from_ron (.seq (.cons (.number 1) (.cons (.number 2) (.cons (.number 3) .nil)))) (.slice .u32)
        = .error (.typeMismatch (.slice .u32) (.number 1))
    ∧ from_slice c7Files = .panicked (.typeMismatch (.slice .u32) (.number 1)) := by
  decide

/-- Claim C8, counterexample: `from_ron` returns successfully for a boolean
literal under declared type `u32`, yet the returned value's tag is `Bool`,
not `U32`, and this mismatched value is stored in a property mapping by a
successful load — refuting the tag-matches-declared-type invariant. -/
theorem c8_counterexample :
    Value.from_ron (.boolean true) .u32 = .ok (.bool true)
    ∧ tagMatches (.bool true) .u32 = false
    ∧ propValueOf (from_slice c6Files) eStr propStr aStr = some (.bool true) := by
  decide

end Feather
